import Mathlib

/-!
Verification of the core components of the NexusLearn backend:
the embedding cache (`backend/optimizations/embedding_cache.py`),
the token-bucket rate limiter (`backend/optimizations/rate_limiter.py`),
the namespaced vector store (`backend/services/vector_store.py`), and
the dependency-graph agent executor (`backend/optimizations/agent_dag.py`).

The Python code is shallowly embedded: Python dicts become insertion-ordered
association lists over `String` keys, floats and wall-clock timestamps become
rationals, and asynchronous calls to external providers become explicit
function parameters returning `Except`.  SHA-256 key derivation is modelled
by an abstract key function parameter (`hashFn` / `keyFn`): the claims under
verification depend only on its determinism (and, where noted, injectivity,
which the spec mandates by declaring hash collisions a correctness bug).
-/

set_option maxRecDepth 10000

namespace NexusLearn

/-! ## Python-dict primitives

Python `dict` / `OrderedDict` values are modelled as insertion-ordered
association lists.  `dictGet` is `d.get(k)` / `k in d`, `dictSet` is
`d[k] = v` (overwrite in place, or append for a fresh key), `dictErase`
is `del d[k]`. -/

/-- `d.get(k)`: first value stored under key `k`, if any. -/
def dictGet {α : Type} : List (String × α) → String → Option α
  | [], _ => none
  | (k', v) :: t, k => if k' = k then some v else dictGet t k

/-- `d[k] = v`: overwrite the entry in place if the key is present,
append a new entry otherwise (Python dict insertion-order semantics). -/
def dictSet {α : Type} (l : List (String × α)) (k : String) (v : α) :
    List (String × α) :=
  if (dictGet l k).isSome then
    l.map (fun p => if p.1 = k then (k, v) else p)
  else
    l ++ [(k, v)]

/-- `del d[k]`: remove the entry with key `k`. -/
def dictErase {α : Type} (l : List (String × α)) (k : String) :
    List (String × α) :=
  l.filter (fun p => ¬ (p.1 = k))

/-- `OrderedDict.move_to_end(k)`: move the entry for `k` to the
most-recently-used end, keeping its value. -/
def moveToEnd {α : Type} (l : List (String × α)) (k : String) :
    List (String × α) :=
  match dictGet l k with
  | none => l
  | some v => (l.filter (fun p => ¬ (p.1 = k))) ++ [(k, v)]

@[simp] theorem dictGet_nil {α : Type} (k : String) :
    dictGet ([] : List (String × α)) k = none := rfl

@[simp] theorem dictGet_cons {α : Type} (k' k : String) (v : α) (t) :
    dictGet ((k', v) :: t) k = if k' = k then some v else dictGet t k := rfl

theorem dictGet_append {α : Type} (l₁ l₂ : List (String × α)) (k : String) :
    dictGet (l₁ ++ l₂) k =
      match dictGet l₁ k with
      | some v => some v
      | none => dictGet l₂ k := by
  induction l₁ with
  | nil => simp
  | cons p t ih =>
    obtain ⟨k', v⟩ := p
    by_cases h : k' = k <;> simp [h, ih]

theorem dictGet_filterNe_self {α : Type} (l : List (String × α)) (k : String) :
    dictGet (l.filter (fun p => ¬ (p.1 = k))) k = none := by
  induction l with
  | nil => rfl
  | cons p t ih =>
    obtain ⟨k₀, v₀⟩ := p
    simp only [decide_not] at ih ⊢
    by_cases h : k₀ = k <;> simp [List.filter_cons, h, ih]

theorem dictGet_filterNe_ne {α : Type} (l : List (String × α)) (k k' : String)
    (h : k ≠ k') :
    dictGet (l.filter (fun p => ¬ (p.1 = k'))) k = dictGet l k := by
  induction l with
  | nil => rfl
  | cons p t ih =>
    obtain ⟨k₀, v₀⟩ := p
    simp only [decide_not] at ih ⊢
    by_cases h₀ : k₀ = k'
    · have hk : ¬ (k₀ = k) := by subst h₀; exact fun hc => h hc.symm
      simp [List.filter_cons, h₀, hk, ih, Ne.symm h]
    · by_cases h₁ : k₀ = k <;>
        simp [List.filter_cons, h₀, h₁, ih, h, Ne.symm h]

theorem dictGet_erase_self {α : Type} (l : List (String × α)) (k : String) :
    dictGet (dictErase l k) k = none :=
  dictGet_filterNe_self l k

theorem dictGet_erase_ne {α : Type} (l : List (String × α)) (k k' : String)
    (h : k ≠ k') : dictGet (dictErase l k') k = dictGet l k :=
  dictGet_filterNe_ne l k k' h

theorem dictGet_moveToEnd {α : Type} (l : List (String × α)) (k : String) :
    dictGet (moveToEnd l k) k = dictGet l k := by
  unfold moveToEnd
  cases h : dictGet l k with
  | none => exact h
  | some v =>
    rw [dictGet_append, dictGet_filterNe_self]
    simp

theorem dictGet_moveToEnd_ne {α : Type} (l : List (String × α)) (k k' : String)
    (h : k ≠ k') : dictGet (moveToEnd l k') k = dictGet l k := by
  unfold moveToEnd
  cases hg : dictGet l k' with
  | none => rfl
  | some v =>
    rw [dictGet_append, dictGet_filterNe_ne l k k' h]
    cases hk : dictGet l k with
    | none => simp [Ne.symm h]
    | some w => rfl

theorem dictGet_map_overwrite {α : Type} (l : List (String × α)) (k : String)
    (v : α) (h : (dictGet l k).isSome) :
    dictGet (l.map (fun p => if p.1 = k then (k, v) else p)) k = some v := by
  induction l with
  | nil => simp at h
  | cons p t ih =>
    obtain ⟨k₀, v₀⟩ := p
    by_cases h₀ : k₀ = k
    · simp [h₀]
    · simp only [dictGet_cons, h₀, if_false] at h
      simp [h₀, ih h]

theorem dictGet_map_overwrite_ne {α : Type} (l : List (String × α))
    (k k' : String) (v : α) (h : k ≠ k') :
    dictGet (l.map (fun p => if p.1 = k' then (k', v) else p)) k
      = dictGet l k := by
  induction l with
  | nil => rfl
  | cons p t ih =>
    obtain ⟨k₀, v₀⟩ := p
    by_cases h₀ : k₀ = k'
    · have hk : ¬ (k₀ = k) := by subst h₀; exact fun hc => h hc.symm
      simp [h₀, hk, Ne.symm h, ih]
    · by_cases h₁ : k₀ = k <;> simp [h₀, h₁, ih, h]

theorem dictGet_dictSet_self {α : Type} (l : List (String × α)) (k : String)
    (v : α) : dictGet (dictSet l k v) k = some v := by
  unfold dictSet
  by_cases h : (dictGet l k).isSome
  · simp only [h, if_true]
    exact dictGet_map_overwrite l k v h
  · rw [Option.not_isSome_iff_eq_none] at h
    simp only [h, Option.isSome_none, Bool.false_eq_true, if_false]
    rw [dictGet_append]
    simp [h]

theorem dictGet_dictSet_ne {α : Type} (l : List (String × α)) (k k' : String)
    (v : α) (h : k ≠ k') : dictGet (dictSet l k' v) k = dictGet l k := by
  unfold dictSet
  by_cases hs : (dictGet l k').isSome
  · simp only [hs, if_true]
    exact dictGet_map_overwrite_ne l k k' v h
  · rw [Option.not_isSome_iff_eq_none] at hs
    simp only [hs, Option.isSome_none, Bool.false_eq_true, if_false]
    rw [dictGet_append]
    cases hk : dictGet l k with
    | none => simp [Ne.symm h]
    | some w => rfl

theorem length_filterNe_of_isSome {α : Type} (l : List (String × α))
    (k : String) (hnd : (l.map Prod.fst).Nodup)
    (hmem : (dictGet l k).isSome) :
    (l.filter (fun p => ¬ (p.1 = k))).length + 1 = l.length := by
  induction l with
  | nil => simp at hmem
  | cons p t ih =>
    obtain ⟨k₀, v₀⟩ := p
    simp only [List.map_cons, List.nodup_cons] at hnd
    simp only [decide_not] at ih ⊢
    by_cases h₀ : k₀ = k
    · subst h₀
      have hfix : t.filter (fun p => !decide (p.1 = k₀)) = t := by
        apply List.filter_eq_self.mpr
        intro p hp
        simp only [Bool.not_eq_eq_eq_not, Bool.not_true, decide_eq_false_iff_not]
        exact fun hc => hnd.1 (hc ▸ List.mem_map_of_mem Prod.fst hp)
      simp [List.filter_cons, hfix]
    · simp only [dictGet_cons, h₀, if_false] at hmem
      have := ih hnd.2 hmem
      simp only [List.filter_cons, h₀, decide_False, Bool.not_false, if_true,
        List.length_cons]
      omega

theorem length_moveToEnd {α : Type} (l : List (String × α)) (k : String)
    (hnd : (l.map Prod.fst).Nodup) :
    (moveToEnd l k).length = l.length := by
  unfold moveToEnd
  cases h : dictGet l k with
  | none => rfl
  | some v =>
    have := length_filterNe_of_isSome l k hnd (by simp [h])
    simp only [List.length_append, List.length_cons, List.length_nil]
    omega

theorem length_erase_of_isSome {α : Type} (l : List (String × α)) (k : String)
    (hnd : (l.map Prod.fst).Nodup) (hmem : (dictGet l k).isSome) :
    (dictErase l k).length + 1 = l.length :=
  length_filterNe_of_isSome l k hnd hmem

/-! ## Embedding cache (`backend/optimizations/embedding_cache.py`)

`EmbeddingCache` is an LRU cache with TTL.  `cache` is the `OrderedDict`
(front = least recently used), `timestamps` the insertion-time dict.
Wall-clock time is passed explicitly as `now`; the SHA-256-prefix key
derivation `_hash` is the abstract parameter `hashFn`. -/

structure ECache (V : Type) where
  cache : List (String × V)
  maxSize : ℕ
  ttl : ℚ
  timestamps : List (String × ℚ)
  hits : ℕ
  misses : ℕ

/-- `EmbeddingCache.get`: returns the cached vector if present and fresh
(moving the entry to the MRU end and counting a hit); purges a
present-but-expired entry; counts a miss and returns `None` otherwise. -/
def ECache.get {V : Type} (hashFn : String → String) (c : ECache V)
    (text : String) (now : ℚ) : Option V × ECache V :=
  let key := hashFn text
  match dictGet c.cache key with
  | some v =>
    if now - ((dictGet c.timestamps key).getD 0) < c.ttl then
      (some v, { c with cache := moveToEnd c.cache key, hits := c.hits + 1 })
    else
      (none, { c with cache := dictErase c.cache key,
                      timestamps := dictErase c.timestamps key,
                      misses := c.misses + 1 })
  | none => (none, { c with misses := c.misses + 1 })

/-- `EmbeddingCache.set`: evicts the LRU entry when at capacity and the key
is new, then stores the value and moves it to the MRU end. -/
def ECache.set {V : Type} (hashFn : String → String) (c : ECache V)
    (text : String) (v : V) (now : ℚ) : ECache V :=
  let key := hashFn text
  let c1 :=
    if c.maxSize ≤ c.cache.length ∧ (dictGet c.cache key).isNone then
      match c.cache with
      | [] => c
      | (k0, _) :: _ =>
        { c with cache := dictErase c.cache k0,
                 timestamps := dictErase c.timestamps k0 }
    else c
  { c1 with cache := moveToEnd (dictSet c1.cache key v) key,
            timestamps := dictSet c1.timestamps key now }

/-- `EmbeddingCache.hit_rate`. -/
def ECache.hitRate {V : Type} (c : ECache V) : ℚ :=
  if c.hits + c.misses = 0 then 0 else (c.hits : ℚ) / ((c.hits : ℚ) + (c.misses : ℚ))

structure CacheStats where
  size : ℕ
  maxSize : ℕ
  hits : ℕ
  misses : ℕ
  hitRate : ℚ
  ttl : ℚ
deriving DecidableEq

/-- `EmbeddingCache.get_stats`. -/
def ECache.getStats {V : Type} (c : ECache V) : CacheStats :=
  { size := c.cache.length, maxSize := c.maxSize, hits := c.hits,
    misses := c.misses, hitRate := c.hitRate, ttl := c.ttl }

theorem moveToEnd_idem {α : Type} (l : List (String × α)) (k : String) :
    moveToEnd (moveToEnd l k) k = moveToEnd l k := by
  unfold moveToEnd
  cases h : dictGet l k with
  | none => simp [h]
  | some v =>
    have hm : dictGet (l.filter (fun p => ¬ (p.1 = k)) ++ [(k, v)]) k
        = some v := by
      rw [dictGet_append, dictGet_filterNe_self]
      simp
    rw [hm]
    have hfilter : (l.filter (fun p => ¬ (p.1 = k)) ++ [(k, v)]).filter
        (fun p => ¬ (p.1 = k)) = l.filter (fun p => ¬ (p.1 = k)) := by
      rw [List.filter_append]
      have h₁ : ((([(k, v)] : List (String × α))).filter
          (fun p => ¬ (p.1 = k))) = [] := by simp
      have h₂ : (l.filter (fun p => ¬ (p.1 = k))).filter
          (fun p => ¬ (p.1 = k)) = l.filter (fun p => ¬ (p.1 = k)) := by
        apply List.filter_eq_self.mpr
        intro p hp
        exact (List.mem_filter.mp hp).2
      rw [h₁, h₂, List.append_nil]
    rw [hfilter]

/-- C8 scenario: the pair of states after one and after two `get` calls on
the same text at the same instant. -/
def getTwice {V : Type} (hashFn : String → String) (c : ECache V)
    (text : String) (now : ℚ) :
    (Option V × ECache V) × (Option V × ECache V) :=
  let g1 := ECache.get hashFn c text now
  (g1, ECache.get hashFn g1.2 text now)

/-- C8 (amended): two immediately successive `get(text)` calls with no
intervening `set` return the same result, and the second call never changes
`stats().size`; moreover, whenever the entry for `text` is present and fresh
(not expired), the pair of calls leaves `stats().size` entirely unchanged.
(The original claim fails only when the first call purges a
present-but-expired entry, which shrinks the size by one.) -/
theorem cache_get_get_idempotent {V : Type} (hashFn : String → String)
    (c : ECache V) (text : String) (now : ℚ)
    (hnd : (c.cache.map Prod.fst).Nodup) :
    ((getTwice hashFn c text now).1.1 = (getTwice hashFn c text now).2.1)
    ∧ ((getTwice hashFn c text now).2.2.getStats.size
        = (getTwice hashFn c text now).1.2.getStats.size)
    ∧ ((dictGet c.cache (hashFn text)).isSome →
        now - ((dictGet c.timestamps (hashFn text)).getD 0) < c.ttl →
        (getTwice hashFn c text now).2.2.getStats.size = c.getStats.size) := by
  unfold getTwice ECache.get
  cases h : dictGet c.cache (hashFn text) with
  | none =>
    simp only [h]
    refine ⟨trivial, rfl, ?_⟩
    intro hs
    simp at hs
  | some v =>
    by_cases hfresh : now - ((dictGet c.timestamps (hashFn text)).getD 0) < c.ttl
    · simp only [h, if_pos hfresh]
      have h2 : dictGet (moveToEnd c.cache (hashFn text)) (hashFn text)
          = some v := by rw [dictGet_moveToEnd, h]
      simp only [h2, if_pos hfresh]
      refine ⟨trivial, ?_, ?_⟩
      · simp [ECache.getStats, moveToEnd_idem]
      · intro _ _
        simp [ECache.getStats, moveToEnd_idem, length_moveToEnd _ _ hnd]
    · simp only [h, if_neg hfresh]
      have h2 : dictGet (dictErase c.cache (hashFn text)) (hashFn text)
          = none := dictGet_erase_self _ _
      simp only [h2]
      exact ⟨trivial, rfl, fun _ hf => absurd hf hfresh⟩

/-- C8 witness: a cache holding a fresh entry for `"t"`; two successive
gets return the entry twice and leave the size unchanged. -/
theorem cache_get_get_idempotent_witness :
    (((⟨[("t", 7)], 10, 10, [("t", 0)], 0, 0⟩ : ECache ℕ).cache.map
        Prod.fst).Nodup)
    ∧ ((getTwice id (⟨[("t", 7)], 10, 10, [("t", 0)], 0, 0⟩ : ECache ℕ)
          "t" 5).2.2.getStats.size
        = (⟨[("t", 7)], 10, 10, [("t", 0)], 0, 0⟩ : ECache ℕ).getStats.size) := by
  refine ⟨by decide, ?_⟩
  exact (cache_get_get_idempotent id
      (⟨[("t", 7)], 10, 10, [("t", 0)], 0, 0⟩ : ECache ℕ) "t" 5
      (by decide)).2.2 (by simp [dictGet]) (by norm_num [dictGet])

/-- C8 counterexample: with a present-but-expired entry (inserted at time 0,
`ttl = 10`, read at time 20) the two successive `get` calls agree on the
result, but the first purges the expired entry, so `stats().size` drops from
1 to 0 — refuting the claim that the size never changes. -/
theorem cache_get_expired_size_changes :
    ((getTwice id (⟨[("t", 7)], 10, 10, [("t", 0)], 0, 0⟩ : ECache ℕ)
        "t" 20).1.1
      = (getTwice id (⟨[("t", 7)], 10, 10, [("t", 0)], 0, 0⟩ : ECache ℕ)
        "t" 20).2.1)
    ∧ ¬ ((getTwice id (⟨[("t", 7)], 10, 10, [("t", 0)], 0, 0⟩ : ECache ℕ)
          "t" 20).2.2.getStats.size
        = (⟨[("t", 7)], 10, 10, [("t", 0)], 0, 0⟩ : ECache ℕ).getStats.size) := by
  have hfresh : ¬ ((20 : ℚ) < 10) := by norm_num
  constructor <;>
    simp [getTwice, ECache.get, ECache.getStats, dictGet, dictErase,
      List.filter, hfresh]

/-! ## Token bucket (`backend/optimizations/rate_limiter.py`)

`TokenBucket.acquire` is embedded together with an explicit model of its
`asyncio.Lock`: `lockHeld` says whether the current task already holds
`self.lock` when the call reaches `async with self.lock`.  `asyncio.Lock`
is not reentrant, so entering the critical section while `lockHeld` is the
`deadlock` outcome — the task waits forever on a lock it holds itself.
Wall-clock time is the explicit `now`; `await asyncio.sleep(t)` advances it
by `t` and is recorded as a `sleep t` event. -/

structure Bucket where
  capacity : ℚ
  tokens : ℚ
  refillRate : ℚ
  lastRefill : ℚ
deriving DecidableEq

inductive AcqEvent where
  | sleep (t : ℚ)
deriving DecidableEq

inductive AcqOutcome where
  | ret (ok : Bool) (st : Bucket)
  | deadlock
deriving DecidableEq

/-- `TokenBucket.acquire(tokens, blocking)`, fuelled form.  The recursion of
the source (`return await self.acquire(tokens, blocking=False)`) only ever
descends from a blocking call into one non-blocking call, so one unit of
fuel is exact; the fuel-exhausted branch is unreachable.  Returns the trace
of sleep events together with the outcome: `ret ok st` models a normal
return of `ok` leaving the bucket in state `st`; `deadlock` models blocking
forever on `self.lock`.  The recursive call in the blocking branch happens
while the lock is still held (it is inside the `async with self.lock`
block). -/
def Bucket.acquireGo (fuel : ℕ) (st : Bucket) (tokens : ℚ) (blocking : Bool)
    (now : ℚ) (lockHeld : Bool) : List AcqEvent × AcqOutcome :=
  if lockHeld then ([], .deadlock)
  else
    let elapsed := now - st.lastRefill
    let newTokens := elapsed * st.refillRate
    let st1 : Bucket :=
      { st with tokens := min st.capacity (st.tokens + newTokens),
                lastRefill := now }
    if tokens ≤ st1.tokens then
      ([], .ret true { st1 with tokens := st1.tokens - tokens })
    else if blocking then
      match fuel with
      | 0 => ([], .deadlock)
      | fuel + 1 =>
        let waitTime := (tokens - st1.tokens) / st1.refillRate
        let retry := Bucket.acquireGo fuel st1 tokens false (now + waitTime) true
        (.sleep waitTime :: retry.1, retry.2)
    else ([], .ret false st1)

/-- `TokenBucket.acquire`: entry point, called with the lock not yet held. -/
def Bucket.acquire (st : Bucket) (tokens : ℚ) (blocking : Bool) (now : ℚ)
    (lockHeld : Bool) : List AcqEvent × AcqOutcome :=
  Bucket.acquireGo 1 st tokens blocking now lockHeld

/-- C7: the code bug.  For any bucket whose post-refill balance cannot cover
the request, `acquire(tokens, blocking=True)` sleeps exactly
`(tokens - balance) / refill_rate` seconds and then re-invokes `acquire`
exactly once in non-blocking mode — but that single retry re-enters
`async with self.lock` while the same task still holds the lock
(`asyncio.Lock` is not reentrant), so the blocking path deadlocks and never
returns the retry's result, contradicting the claim, the spec, and the
method's own docstring (`If True, wait until tokens are available`). -/
theorem acquire_blocking_deadlocks (st : Bucket) (tokens now : ℚ)
    (hins : ¬ (tokens ≤
      min st.capacity (st.tokens + (now - st.lastRefill) * st.refillRate))) :
    Bucket.acquire st tokens true now false
      = ([AcqEvent.sleep ((tokens -
            min st.capacity
              (st.tokens + (now - st.lastRefill) * st.refillRate))
            / st.refillRate)],
         AcqOutcome.deadlock) := by
  simp only [Bucket.acquire, Bucket.acquireGo, Bool.false_eq_true, if_false,
    if_neg hins, if_true]

/-- C7 witness: a drained bucket (`capacity=10, refill_rate=1, tokens=0`)
asked for one token in blocking mode sleeps exactly 1 second and then
deadlocks instead of returning. -/
theorem acquire_blocking_deadlocks_witness :
    Bucket.acquire ⟨10, 0, 1, 0⟩ 1 true 0 false
      = ([AcqEvent.sleep 1], AcqOutcome.deadlock) := by
  have h := acquire_blocking_deadlocks ⟨10, 0, 1, 0⟩ 1 0 (by norm_num)
  simp only [h]
  norm_num

/-! ## Vector store (`backend/services/vector_store.py`)

`VectorStoreService` keeps, per namespace (`module_id`), a FAISS flat-L2
index and a parallel metadata list, plus on-disk artifacts keyed by
`sha256(module_id)`.  The embedding:
- a FAISS index is its list of row vectors (`List Vec`);
- the on-disk artifact pair is one entry in the `disk` association list,
  keyed by the abstract hash `keyFn` (modelling `_module_key`);
- the external embedding provider is a function parameter returning
  `Except PErr _` (`PErr` = ProviderError);
- `index.search` is the abstract parameter `indexSearch`, returning
  (index, L2-distance) pairs — FAISS pads missing neighbours with index -1.
-/

/-- A value inside a metadata dict: `none` is Python `None`. -/
abbrev PyV (Val : Type) := Option Val

/-- An input document passed to `add_documents`:
`{"text": str, "source": str, "url": str, "metadata": dict}`.
Absent `source`/`url` are `none`; `metadata` is `none` when absent
or not a dict (the `isinstance` check in the source). -/
structure Doc (Val : Type) where
  text : String
  source : Option String
  url : Option String
  metadata : Option (List (String × PyV Val))
deriving DecidableEq

/-- A stored metadata record, as built in `add_documents`. -/
structure Record (Val : Type) where
  source : String
  url : String
  text : String
  metadata : List (String × PyV Val)
deriving DecidableEq

/-- The record derivation of `add_documents`:
`doc.get("source", "Unknown")`, `doc.get("url", "")`, `doc["text"]`,
and `doc.get("metadata")` if it is a dict else `{}`. -/
def Doc.toRecord {Val : Type} (d : Doc Val) : Record Val :=
  { source := d.source.getD "Unknown", url := d.url.getD "",
    text := d.text, metadata := d.metadata.getD [] }

/-- In-memory and on-disk state of `VectorStoreService`. -/
structure VStore (Vec Val : Type) where
  indices : List (String × List Vec)
  metadata : List (String × List (Record Val))
  disk : List (String × (List Vec × List (Record Val)))
deriving DecidableEq

/-- `_load_module`: no-op when both in-memory maps already hold the module;
otherwise read both artifacts from disk if present.  Returns the updated
store and whether the module is now resident. -/
def loadModule {Vec Val : Type} (keyFn : String → String)
    (st : VStore Vec Val) (ns : String) : VStore Vec Val × Bool :=
  if (dictGet st.indices ns).isSome ∧ (dictGet st.metadata ns).isSome then
    (st, true)
  else
    match dictGet st.disk (keyFn ns) with
    | none => (st, false)
    | some (vecs, recs) =>
      ({ st with indices := dictSet st.indices ns vecs,
                 metadata := dictSet st.metadata ns recs }, true)

/-- `_save_module`: write the index/metadata pair to disk under the hashed
key; no-op when the module is not resident. -/
def saveModule {Vec Val : Type} (keyFn : String → String)
    (st : VStore Vec Val) (ns : String) : VStore Vec Val :=
  match dictGet st.indices ns, dictGet st.metadata ns with
  | some vecs, some recs =>
    { st with disk := dictSet st.disk (keyFn ns) (vecs, recs) }
  | _, _ => st

/-- `_get_index`: lazily load the module, creating a fresh empty index and
metadata list when nothing is on disk. -/
def getIndexEnsure {Vec Val : Type} (keyFn : String → String)
    (st : VStore Vec Val) (ns : String) : VStore Vec Val :=
  if (dictGet st.indices ns).isSome then st
  else
    let load := loadModule keyFn st ns
    if load.2 then load.1
    else { load.1 with indices := dictSet load.1.indices ns [],
                       metadata := dictSet load.1.metadata ns [] }

/-- The batching loop of `add_documents`
(`for i in range(0, len(texts), batch_size)`), fuelled form: each step
consumes `l.take bs` and recurses on `l.drop bs`; fuel `l.length` is always
sufficient for `bs ≥ 1`. -/
def batchesGo {α : Type} (bs : ℕ) : ℕ → List α → List (List α)
  | 0, _ => []
  | _, [] => []
  | fuel + 1, l => l.take bs :: batchesGo bs fuel (l.drop bs)

/-- `add_documents` batches texts in chunks of `batch_size = 50`. -/
def batches50 {α : Type} (l : List α) : List (List α) :=
  batchesGo 50 l.length l

/-- Sequential effectful map: the first `error` aborts (as the first raised
exception aborts a Python loop). -/
def exceptMapM {α β ε : Type} (f : α → Except ε β) : List α → Except ε (List β)
  | [] => .ok []
  | a :: t =>
    match f a with
    | .error e => .error e
    | .ok b =>
      match exceptMapM f t with
      | .error e => .error e
      | .ok bs => .ok (b :: bs)

/-- `add_documents`: ensure the module is resident, embed all texts in
batches of 50, then append all vectors to the index, append all records to
the metadata list, and persist.  A provider failure on any batch raises
(`some e`) before any index/metadata mutation. -/
def addDocuments {Vec Val PErr : Type} (keyFn : String → String)
    (embedBatch : List String → Except PErr (List Vec))
    (st : VStore Vec Val) (ns : String) (docs : List (Doc Val)) :
    VStore Vec Val × Option PErr :=
  let st1 := getIndexEnsure keyFn st ns
  let texts := docs.map Doc.text
  match exceptMapM embedBatch (batches50 texts) with
  | .error e => (st1, some e)
  | .ok embss =>
    let newVecs := (dictGet st1.indices ns).getD [] ++ embss.flatten
    let st2 := { st1 with indices := dictSet st1.indices ns newVecs }
    let newRecs := (dictGet st2.metadata ns).getD [] ++ docs.map Doc.toRecord
    let st3 := { st2 with metadata := dictSet st2.metadata ns newRecs }
    (saveModule keyFn st3 ns, none)

/-- A sequence of `add_documents` calls to the same namespace; the first
provider failure aborts the sequence (as it would raise to the caller). -/
def addMany {Vec Val PErr : Type} (keyFn : String → String)
    (embedBatch : List String → Except PErr (List Vec))
    (st : VStore Vec Val) (ns : String) :
    List (List (Doc Val)) → VStore Vec Val × Option PErr
  | [] => (st, none)
  | ds :: rest =>
    match addDocuments keyFn embedBatch st ns ds with
    | (st1, none) => addMany keyFn embedBatch st1 ns rest
    | (st1, some e) => (st1, some e)

/-- The effective vector rows of a namespace: the in-memory index when
resident, else the on-disk artifact, else empty.  This is what any
subsequent lazily-loading read observes. -/
def nsVectors {Vec Val : Type} (keyFn : String → String)
    (st : VStore Vec Val) (ns : String) : List Vec :=
  match dictGet st.indices ns with
  | some vecs => vecs
  | none =>
    match dictGet st.disk (keyFn ns) with
    | some (vecs, _) => vecs
    | none => []

/-- The effective metadata records of a namespace (same reading discipline
as `nsVectors`). -/
def nsRecords {Vec Val : Type} (keyFn : String → String)
    (st : VStore Vec Val) (ns : String) : List (Record Val) :=
  match dictGet st.metadata ns with
  | some recs => recs
  | none =>
    match dictGet st.disk (keyFn ns) with
    | some (_, recs) => recs
    | none => []

/-- `get_context_length`: lazy-load, then the metadata list length, 0 when
the namespace has never been written. -/
def getContextLength {Vec Val : Type} (keyFn : String → String)
    (st : VStore Vec Val) (ns : String) : VStore Vec Val × ℕ :=
  let st1 := if (dictGet st.metadata ns).isNone
    then (loadModule keyFn st ns).1 else st
  match dictGet st1.metadata ns with
  | some recs => (st1, recs.length)
  | none => (st1, 0)

/-- A metadata filter value: `fnone` is Python `None`, `fmem` a
list/tuple/set (membership test), `feqv` a scalar (equality test). -/
inductive FilterSpec (Val : Type) where
  | fnone
  | fmem (vs : List (PyV Val))
  | feqv (v : Val)
deriving DecidableEq

/-- `meta.get(key)`: Python `None` for an absent key. -/
def metaGet {Val : Type} (meta : List (String × PyV Val)) (k : String) :
    PyV Val :=
  (dictGet meta k).getD none

/-- The `matches_filters` closure of `search`: empty/absent filters accept
everything; a `None` expected value is skipped (`continue`); a list
expected value is a membership test; a scalar an equality test.  A key
absent from the document metadata yields `None`, which fails both tests. -/
def matchesFilters {Val : Type} [DecidableEq Val]
    (metadataFilters : Option (List (String × FilterSpec Val)))
    (docMeta : List (String × PyV Val)) : Bool :=
  match metadataFilters with
  | none => true
  | some fs =>
    if fs.isEmpty then true
    else fs.all (fun p =>
      match p.2 with
      | .fnone => true
      | .fmem vs => decide (metaGet docMeta p.1 ∈ vs)
      | .feqv v => decide (metaGet docMeta p.1 = some v))

/-- The inline filter loop of `get_documents` (same semantics as
`matches_filters`, duplicated in the source). -/
def docPassesFilters {Val : Type} [DecidableEq Val]
    (fs : List (String × FilterSpec Val))
    (docMeta : List (String × PyV Val)) : Bool :=
  fs.all (fun p =>
    match p.2 with
    | .fnone => true
    | .fmem vs => decide (metaGet docMeta p.1 ∈ vs)
    | .feqv v => decide (metaGet docMeta p.1 = some v))

/-- `get_documents`: lazy-load, then return the (optionally filtered)
record list; empty/absent filters (`if not metadata_filters`) return the
whole list. -/
def getDocuments {Vec Val : Type} [DecidableEq Val] (keyFn : String → String)
    (st : VStore Vec Val) (ns : String)
    (metadataFilters : Option (List (String × FilterSpec Val))) :
    VStore Vec Val × List (Record Val) :=
  let st1 := if (dictGet st.metadata ns).isNone
    then (loadModule keyFn st ns).1 else st
  match dictGet st1.metadata ns with
  | none => (st1, [])
  | some docs =>
    match metadataFilters with
    | none => (st1, docs)
    | some fs =>
      if fs.isEmpty then (st1, docs)
      else (st1, docs.filter (fun d => docPassesFilters fs d.metadata))

/-- A search hit: a copy of the record plus the derived `distance` and
`similarity_score = 1 / (1 + distance)` fields. -/
structure SRecord (Val : Type) where
  record : Record Val
  distance : ℚ
  similarityScore : ℚ
deriving DecidableEq

/-- The result loop of `search` over the `(I, D)` pairs: `-1` or
out-of-range indices are skipped (`continue`, which also skips the break
check); matching documents are appended; the loop breaks as soon as
`len(results) >= top_k` after a non-skipped element. -/
def collectResults {Val : Type} [DecidableEq Val] (recs : List (Record Val))
    (metadataFilters : Option (List (String × FilterSpec Val))) (topK : ℕ) :
    List (ℤ × ℚ) → List (SRecord Val) → List (SRecord Val)
  | [], results => results
  | (idx, dist) :: rest, results =>
    if idx = -1 ∨ (recs.length : ℤ) ≤ idx then
      collectResults recs metadataFilters topK rest results
    else
      let rec0 := (recs.get? idx.toNat).getD ⟨"", "", "", []⟩
      let doc : SRecord Val := ⟨rec0, dist, 1 / (1 + dist)⟩
      let results1 := if matchesFilters metadataFilters rec0.metadata
        then results ++ [doc] else results
      if topK ≤ results1.length then results1
      else collectResults recs metadataFilters topK rest results1

/-- The body of `search` inside its `try` block (after the lazy load):
an unknown namespace returns no results; otherwise the query is embedded —
a `ProviderError` raises out of the body — and the `max(top_k, overfetch_k)`
nearest neighbours are filtered and truncated. -/
def searchCore {Vec Val PErr : Type} [DecidableEq Val]
    (embed : String → Except PErr Vec)
    (indexSearch : List Vec → Vec → ℕ → List (ℤ × ℚ))
    (st : VStore Vec Val) (ns query : String) (topK : ℕ)
    (metadataFilters : Option (List (String × FilterSpec Val)))
    (overfetchK : ℕ) : Except PErr (List (SRecord Val)) :=
  match dictGet st.indices ns with
  | none => .ok []
  | some vecs =>
    match embed query with
    | .error e => .error e
    | .ok qv =>
      let k := max topK overfetchK
      let pairs := indexSearch vecs qv k
      let recs := (dictGet st.metadata ns).getD []
      .ok (collectResults recs metadataFilters topK pairs [])

/-- `search`: lazy-load, then run the body; the enclosing
`except Exception: return []` converts any raised error — in particular a
`ProviderError` from embedding the query — into an empty result list. -/
def search {Vec Val PErr : Type} [DecidableEq Val] (keyFn : String → String)
    (embed : String → Except PErr Vec)
    (indexSearch : List Vec → Vec → ℕ → List (ℤ × ℚ))
    (st : VStore Vec Val) (ns query : String) (topK : ℕ)
    (metadataFilters : Option (List (String × FilterSpec Val)))
    (overfetchK : ℕ) : VStore Vec Val × List (SRecord Val) :=
  let st1 := if (dictGet st.indices ns).isNone
    then (loadModule keyFn st ns).1 else st
  match searchCore embed indexSearch st1 ns query topK metadataFilters
      overfetchK with
  | .ok results => (st1, results)
  | .error _ => (st1, [])

/-- A fresh process: in-memory maps empty, the disk artifacts surviving. -/
def freshProcess {Vec Val : Type} (st : VStore Vec Val) : VStore Vec Val :=
  ⟨[], [], st.disk⟩

/-! ### Vector store: supporting lemmas -/

theorem batchesGo_fuel {α : Type} {bs : ℕ} (hbs : 0 < bs) :
    ∀ (f₁ f₂ : ℕ) (l : List α), l.length ≤ f₁ → l.length ≤ f₂ →
      batchesGo bs f₁ l = batchesGo bs f₂ l := by
  intro f₁
  induction f₁ with
  | zero =>
    intro f₂ l h₁ h₂
    have hl : l = [] := List.eq_nil_of_length_eq_zero (Nat.le_zero.mp h₁)
    subst hl
    cases f₂ <;> rfl
  | succ f₁ ih =>
    intro f₂ l h₁ h₂
    cases l with
    | nil => cases f₂ <;> rfl
    | cons a t =>
      cases f₂ with
      | zero => simp at h₂
      | succ g =>
        simp only [batchesGo]
        congr 1
        apply ih
        · simp only [List.length_drop, List.length_cons]
          simp only [List.length_cons] at h₁
          omega
        · simp only [List.length_drop, List.length_cons]
          simp only [List.length_cons] at h₂
          omega

theorem batches50_cons {α : Type} (l : List α) (h : l ≠ []) :
    batches50 l = l.take 50 :: batches50 (l.drop 50) := by
  obtain ⟨a, t, rfl⟩ := List.exists_cons_of_ne_nil h
  show batchesGo 50 ((a :: t).length) (a :: t) = _
  simp only [List.length_cons, batchesGo]
  congr 1
  apply batchesGo_fuel (by norm_num)
  · simp only [List.length_drop, List.length_cons]
    omega
  · exact le_rfl

theorem exceptMapM_append {α β ε : Type} (f : α → Except ε β)
    (l₁ l₂ : List α) :
    exceptMapM f (l₁ ++ l₂)
      = match exceptMapM f l₁ with
        | .error e => .error e
        | .ok bs =>
          match exceptMapM f l₂ with
          | .error e => .error e
          | .ok cs => .ok (bs ++ cs) := by
  induction l₁ with
  | nil =>
    simp only [List.nil_append, exceptMapM]
    cases exceptMapM f l₂ <;> rfl
  | cons a t ih =>
    simp only [List.cons_append, exceptMapM, List.append_eq, ih]
    cases f a with
    | error e => rfl
    | ok b =>
      cases exceptMapM f t with
      | error e => rfl
      | ok bs =>
        cases exceptMapM f l₂ <;> rfl

theorem exceptMapM_ok_length {α β ε : Type} (f : α → Except ε β)
    (l : List α) (bs : List β) (h : exceptMapM f l = .ok bs) :
    bs.length = l.length := by
  induction l generalizing bs with
  | nil =>
    simp only [exceptMapM] at h
    cases h
    rfl
  | cons a t ih =>
    simp only [exceptMapM] at h
    cases hfa : f a with
    | error e => rw [hfa] at h; cases h
    | ok b =>
      rw [hfa] at h
      cases hmt : exceptMapM f t with
      | error e => rw [hmt] at h; cases h
      | ok cs =>
        rw [hmt] at h
        cases h
        simp [ih cs hmt]

/-- Joining the per-batch results of the chunked embedding loop equals
embedding the whole text list pointwise: chunking in 50s neither reorders
nor drops embeddings, and the first failing batch produces the same error. -/
theorem exceptMapM_batches50 {α β ε : Type} (f : α → Except ε β)
    (l : List α) :
    (match exceptMapM (exceptMapM f) (batches50 l) with
      | .error e => .error e
      | .ok bss => .ok bss.flatten)
      = exceptMapM f l := by
  suffices h : ∀ (n : ℕ) (l : List α), l.length ≤ n →
      (match exceptMapM (exceptMapM f) (batches50 l) with
        | .error e => .error e
        | .ok bss => .ok bss.flatten)
        = exceptMapM f l by
    exact h l.length l le_rfl
  intro n
  induction n with
  | zero =>
    intro l hl
    have : l = [] := List.eq_nil_of_length_eq_zero (Nat.le_zero.mp hl)
    subst this
    rfl
  | succ n ih =>
    intro l hl
    by_cases hnil : l = []
    · subst hnil; rfl
    · rw [batches50_cons l hnil]
      have hsplit := exceptMapM_append f (l.take 50) (l.drop 50)
      rw [List.take_append_drop] at hsplit
      rw [hsplit]
      have hrec := ih (l.drop 50) (by
        simp only [List.length_drop]
        have : 1 ≤ l.length := by
          cases l with
          | nil => exact absurd rfl hnil
          | cons a t => simp
        omega)
      simp only [exceptMapM]
      cases h₁ : exceptMapM f (l.take 50) with
      | error e => rfl
      | ok bs =>
        cases h₂ : exceptMapM (exceptMapM f) (batches50 (l.drop 50)) with
        | error e =>
          rw [h₂] at hrec
          simp only at hrec
          rw [← hrec]
        | ok bss =>
          rw [h₂] at hrec
          simp only at hrec
          rw [← hrec]
          simp

theorem getIndexEnsure_disk {Vec Val : Type} (keyFn : String → String)
    (st : VStore Vec Val) (ns : String) :
    (getIndexEnsure keyFn st ns).disk = st.disk := by
  unfold getIndexEnsure loadModule
  by_cases h : (dictGet st.indices ns).isSome
  · simp [h]
  · simp only [h, Bool.false_eq_true, false_and, if_false]
    cases hd : dictGet st.disk (keyFn ns) with
    | none => simp
    | some pr => obtain ⟨vecs, recs⟩ := pr; simp

theorem getIndexEnsure_resident {Vec Val : Type} (keyFn : String → String)
    (st : VStore Vec Val) (ns : String)
    (hsync : (dictGet st.indices ns).isSome
      = (dictGet st.metadata ns).isSome) :
    dictGet (getIndexEnsure keyFn st ns).indices ns
        = some (nsVectors keyFn st ns)
    ∧ dictGet (getIndexEnsure keyFn st ns).metadata ns
        = some (nsRecords keyFn st ns) := by
  unfold getIndexEnsure loadModule nsVectors nsRecords
  cases hi : dictGet st.indices ns with
  | some vecs =>
    have hm : (dictGet st.metadata ns).isSome := by
      rw [← hsync, hi]; rfl
    obtain ⟨recs, hrecs⟩ := Option.isSome_iff_exists.mp hm
    simp [hi, hrecs]
  | none =>
    have hm : dictGet st.metadata ns = none := by
      cases hmm : dictGet st.metadata ns with
      | none => rfl
      | some r => rw [hi, hmm] at hsync; simp at hsync
    simp only [hi, hm, Option.isSome_none, Bool.false_eq_true, if_false,
      false_and]
    cases hd : dictGet st.disk (keyFn ns) with
    | none => simp [dictGet_dictSet_self]
    | some pr =>
      obtain ⟨vecs, recs⟩ := pr
      simp [dictGet_dictSet_self]

theorem getIndexEnsure_other {Vec Val : Type} (keyFn : String → String)
    (st : VStore Vec Val) (ns m : String) (hne : m ≠ ns) :
    dictGet (getIndexEnsure keyFn st ns).indices m = dictGet st.indices m
    ∧ dictGet (getIndexEnsure keyFn st ns).metadata m
        = dictGet st.metadata m := by
  unfold getIndexEnsure loadModule
  by_cases h : (dictGet st.indices ns).isSome
  · simp [h]
  · simp only [h, if_false, false_and]
    cases hd : dictGet st.disk (keyFn ns) with
    | none => simp [dictGet_dictSet_ne _ _ _ _ hne]
    | some pr =>
      obtain ⟨vecs, recs⟩ := pr
      simp [dictGet_dictSet_ne _ _ _ _ hne]

/-- `_get_index` changes no observable namespace content: the effective
vectors and records of every namespace are untouched (for the ensured
namespace this requires its in-memory maps to be in sync, which every
reachable state satisfies). -/
theorem getIndexEnsure_views {Vec Val : Type} (keyFn : String → String)
    (st : VStore Vec Val) (ns m : String)
    (hsync : (dictGet st.indices ns).isSome
      = (dictGet st.metadata ns).isSome) :
    nsVectors keyFn (getIndexEnsure keyFn st ns) m = nsVectors keyFn st m
    ∧ nsRecords keyFn (getIndexEnsure keyFn st ns) m
        = nsRecords keyFn st m := by
  by_cases hm : m = ns
  · subst hm
    obtain ⟨h₁, h₂⟩ := getIndexEnsure_resident keyFn st m hsync
    constructor
    · show nsVectors keyFn (getIndexEnsure keyFn st m) m = _
      unfold nsVectors
      rw [h₁]
      rfl
    · show nsRecords keyFn (getIndexEnsure keyFn st m) m = _
      unfold nsRecords
      rw [h₂]
      rfl
  · obtain ⟨h₁, h₂⟩ := getIndexEnsure_other keyFn st ns m hm
    have hd := getIndexEnsure_disk keyFn st ns
    unfold nsVectors nsRecords
    rw [h₁, h₂, hd]
    exact ⟨rfl, rfl⟩

theorem addDocuments_ok_views {Vec Val PErr : Type} (keyFn : String → String)
    (embedBatch : List String → Except PErr (List Vec))
    (st : VStore Vec Val) (ns : String) (docs : List (Doc Val))
    (embss : List (List Vec))
    (hsync : (dictGet st.indices ns).isSome
      = (dictGet st.metadata ns).isSome)
    (hok : exceptMapM embedBatch (batches50 (docs.map Doc.text))
      = .ok embss) :
    (addDocuments keyFn embedBatch st ns docs).2 = none
    ∧ nsVectors keyFn (addDocuments keyFn embedBatch st ns docs).1 ns
        = nsVectors keyFn st ns ++ embss.flatten
    ∧ nsRecords keyFn (addDocuments keyFn embedBatch st ns docs).1 ns
        = nsRecords keyFn st ns ++ docs.map Doc.toRecord
    ∧ (dictGet (addDocuments keyFn embedBatch st ns docs).1.indices ns).isSome
        = (dictGet (addDocuments keyFn embedBatch st ns docs).1.metadata
            ns).isSome := by
  obtain ⟨h₁, h₂⟩ := getIndexEnsure_resident keyFn st ns hsync
  unfold addDocuments saveModule
  simp only [hok, h₁, h₂, Option.getD_some, dictGet_dictSet_self]
  refine ⟨trivial, ?_, ?_, ?_⟩
  · unfold nsVectors
    simp [dictGet_dictSet_self]
  · unfold nsRecords
    simp [dictGet_dictSet_self]
  · simp [dictGet_dictSet_self]

theorem addDocuments_ok_of_none {Vec Val PErr : Type}
    (keyFn : String → String)
    (embedBatch : List String → Except PErr (List Vec))
    (st : VStore Vec Val) (ns : String) (docs : List (Doc Val))
    (h : (addDocuments keyFn embedBatch st ns docs).2 = none) :
    ∃ embss, exceptMapM embedBatch (batches50 (docs.map Doc.text))
      = .ok embss := by
  unfold addDocuments at h
  cases hm : exceptMapM embedBatch (batches50 (docs.map Doc.text)) with
  | error e => simp only [hm] at h; simp at h
  | ok embss => exact ⟨embss, rfl⟩

/-- C3: atomicity of `add_documents` under provider failure.  If the
embedding provider fails on any batch, the call raises (`some e`) and the
effective vectors, records, and on-disk artifacts of every namespace are
exactly as before the call: no index or metadata mutation happens (all
embedding batches are collected before the single `index.add`). -/
theorem add_documents_atomic_on_provider_error {Vec Val PErr : Type}
    (keyFn : String → String)
    (embedBatch : List String → Except PErr (List Vec))
    (st : VStore Vec Val) (ns : String) (docs : List (Doc Val)) (e : PErr)
    (hsync : (dictGet st.indices ns).isSome
      = (dictGet st.metadata ns).isSome)
    (herr : exceptMapM embedBatch (batches50 (docs.map Doc.text))
      = .error e) :
    (addDocuments keyFn embedBatch st ns docs).2 = some e
    ∧ (∀ m, nsVectors keyFn (addDocuments keyFn embedBatch st ns docs).1 m
        = nsVectors keyFn st m)
    ∧ (∀ m, nsRecords keyFn (addDocuments keyFn embedBatch st ns docs).1 m
        = nsRecords keyFn st m)
    ∧ (addDocuments keyFn embedBatch st ns docs).1.disk = st.disk := by
  unfold addDocuments
  simp only [herr]
  exact ⟨trivial,
    fun m => (getIndexEnsure_views keyFn st ns m hsync).1,
    fun m => (getIndexEnsure_views keyFn st ns m hsync).2,
    getIndexEnsure_disk keyFn st ns⟩

/-- C3 witness: a failing provider on a fresh store: the add raises and the
namespace content is unchanged. -/
theorem add_documents_atomic_witness :
    ((addDocuments id (fun _ => (Except.error () : Except Unit (List ℕ)))
        (⟨[], [], []⟩ : VStore ℕ ℕ) "m" [⟨"a", none, none, none⟩]).2
      = some ())
    ∧ nsVectors id (addDocuments id
        (fun _ => (Except.error () : Except Unit (List ℕ)))
        (⟨[], [], []⟩ : VStore ℕ ℕ) "m" [⟨"a", none, none, none⟩]).1 "m"
      = nsVectors id (⟨[], [], []⟩ : VStore ℕ ℕ) "m" := by
  have h := add_documents_atomic_on_provider_error id
      (fun _ => (Except.error () : Except Unit (List ℕ)))
      (⟨[], [], []⟩ : VStore ℕ ℕ) "m" [⟨"a", none, none, none⟩] ()
      rfl rfl
  exact ⟨h.1, h.2.1 "m"⟩

theorem addMany_views {Vec Val PErr : Type} (keyFn : String → String)
    (embed1 : String → Except PErr Vec) (ns : String) :
    ∀ (dss : List (List (Doc Val))) (st : VStore Vec Val),
      (dictGet st.indices ns).isSome = (dictGet st.metadata ns).isSome →
      (addMany keyFn (exceptMapM embed1) st ns dss).2 = none →
      ∃ newVecs,
        exceptMapM embed1 (dss.flatten.map Doc.text) = .ok newVecs
        ∧ nsVectors keyFn (addMany keyFn (exceptMapM embed1) st ns dss).1 ns
            = nsVectors keyFn st ns ++ newVecs
        ∧ nsRecords keyFn (addMany keyFn (exceptMapM embed1) st ns dss).1 ns
            = nsRecords keyFn st ns ++ dss.flatten.map Doc.toRecord := by
  intro dss
  induction dss with
  | nil =>
    intro st hsync hok
    exact ⟨[], rfl, by simp [addMany], by simp [addMany]⟩
  | cons ds rest ih =>
    intro st hsync hok
    rcases hadd : addDocuments keyFn (exceptMapM embed1) st ns ds with
      ⟨st1, r⟩
    cases r with
    | some e =>
      exfalso
      have hstep : addMany keyFn (exceptMapM embed1) st ns (ds :: rest)
          = (st1, some e) := by
        show (match addDocuments keyFn (exceptMapM embed1) st ns ds with
          | (st1, none) => addMany keyFn (exceptMapM embed1) st1 ns rest
          | (st1, some e) => (st1, some e)) = _
        rw [hadd]
      rw [hstep] at hok
      simp at hok
    | none =>
      have hstep : addMany keyFn (exceptMapM embed1) st ns (ds :: rest)
          = addMany keyFn (exceptMapM embed1) st1 ns rest := by
        show (match addDocuments keyFn (exceptMapM embed1) st ns ds with
          | (st1, none) => addMany keyFn (exceptMapM embed1) st1 ns rest
          | (st1, some e) => (st1, some e)) = _
        rw [hadd]
      obtain ⟨embss, hembss⟩ := addDocuments_ok_of_none keyFn
        (exceptMapM embed1) st ns ds (by rw [hadd])
      have hviews := addDocuments_ok_views keyFn (exceptMapM embed1) st ns ds
        embss hsync hembss
      rw [hadd] at hviews
      have hflat : exceptMapM embed1 (ds.map Doc.text) = .ok embss.flatten := by
        have := exceptMapM_batches50 embed1 (ds.map Doc.text)
        rw [hembss] at this
        simpa using this.symm
      have hok1 : (addMany keyFn (exceptMapM embed1) st1 ns rest).2 = none := by
        rw [hstep] at hok
        exact hok
      obtain ⟨vecs2, hv2, hnv2, hnr2⟩ := ih st1 hviews.2.2.2 hok1
      refine ⟨embss.flatten ++ vecs2, ?_, ?_, ?_⟩
      · rw [List.flatten_cons, List.map_append, exceptMapM_append, hflat, hv2]
      · rw [hstep, hnv2, hviews.2.1, List.append_assoc]
      · rw [hstep, hnr2, hviews.2.2.1, List.append_assoc,
          List.flatten_cons, List.map_append]

theorem getContextLength_eq {Vec Val : Type} (keyFn : String → String)
    (st : VStore Vec Val) (ns : String) :
    (getContextLength keyFn st ns).2 = (nsRecords keyFn st ns).length := by
  unfold getContextLength loadModule nsRecords
  cases hm : dictGet st.metadata ns with
  | some recs => simp [hm]
  | none =>
    simp only [hm, Option.isNone_none, if_true, Option.isSome_none,
      Bool.false_eq_true, and_false]
    cases hd : dictGet st.disk (keyFn ns) with
    | none => simp [hm, hd]
    | some pr =>
      obtain ⟨v, r⟩ := pr
      simp [hm, hd, dictGet_dictSet_self]

/-- C1: for every sequence of successful `add()` calls to one namespace
(starting from a fresh store), `get_context_length` equals the total number
of documents added; the metadata records are exactly the records derived
from the documents in insertion order; and the index rows are exactly the
per-text embeddings of those documents in the same order (so metadata
position `i` always corresponds to index row `i`, and row `i` is the
embedding of document `i`). -/
theorem add_sequence_alignment {Vec Val PErr : Type}
    (keyFn : String → String) (embed1 : String → Except PErr Vec)
    (ns : String) (dss : List (List (Doc Val)))
    (hok : (addMany keyFn (exceptMapM embed1)
      (⟨[], [], []⟩ : VStore Vec Val) ns dss).2 = none) :
    ((getContextLength keyFn (addMany keyFn (exceptMapM embed1)
        (⟨[], [], []⟩ : VStore Vec Val) ns dss).1 ns).2
      = (dss.map List.length).sum)
    ∧ nsRecords keyFn (addMany keyFn (exceptMapM embed1)
        (⟨[], [], []⟩ : VStore Vec Val) ns dss).1 ns
      = dss.flatten.map Doc.toRecord
    ∧ exceptMapM embed1 (dss.flatten.map Doc.text)
      = .ok (nsVectors keyFn (addMany keyFn (exceptMapM embed1)
          (⟨[], [], []⟩ : VStore Vec Val) ns dss).1 ns)
    ∧ (nsVectors keyFn (addMany keyFn (exceptMapM embed1)
        (⟨[], [], []⟩ : VStore Vec Val) ns dss).1 ns).length
      = (nsRecords keyFn (addMany keyFn (exceptMapM embed1)
          (⟨[], [], []⟩ : VStore Vec Val) ns dss).1 ns).length := by
  obtain ⟨newVecs, hv, hnv, hnr⟩ := addMany_views keyFn embed1 ns dss
    (⟨[], [], []⟩ : VStore Vec Val) rfl hok
  have hV0 : nsVectors keyFn (⟨[], [], []⟩ : VStore Vec Val) ns = [] := rfl
  have hR0 : nsRecords keyFn (⟨[], [], []⟩ : VStore Vec Val) ns = [] := rfl
  rw [hV0, List.nil_append] at hnv
  rw [hR0, List.nil_append] at hnr
  have hlen : newVecs.length = dss.flatten.length := by
    have hx := exceptMapM_ok_length embed1 _ _ hv
    rwa [List.length_map] at hx
  refine ⟨?_, hnr, ?_, ?_⟩
  · rw [getContextLength_eq, hnr, List.length_map, List.length_flatten]
  · rw [hnv]
    exact hv
  · rw [hnv, hnr, List.length_map]
    exact hlen

/-- C1 witness: two successful adds of one document each to namespace `"m"`
give context length 2 and the two derived records in insertion order. -/
theorem add_sequence_alignment_witness :
    ((getContextLength id (addMany id
        (exceptMapM (fun s => (Except.ok s.length : Except Unit ℕ)))
        (⟨[], [], []⟩ : VStore ℕ ℕ) "m"
        [[⟨"ab", some "s", none, none⟩], [⟨"c", none, none, none⟩]]).1 "m").2
      = 2)
    ∧ nsRecords id (addMany id
        (exceptMapM (fun s => (Except.ok s.length : Except Unit ℕ)))
        (⟨[], [], []⟩ : VStore ℕ ℕ) "m"
        [[⟨"ab", some "s", none, none⟩], [⟨"c", none, none, none⟩]]).1 "m"
      = [⟨"s", "", "ab", []⟩, ⟨"Unknown", "", "c", []⟩]
    ∧ nsVectors id (addMany id
        (exceptMapM (fun s => (Except.ok s.length : Except Unit ℕ)))
        (⟨[], [], []⟩ : VStore ℕ ℕ) "m"
        [[⟨"ab", some "s", none, none⟩], [⟨"c", none, none, none⟩]]).1 "m"
      = [2, 1] := by
  have h := add_sequence_alignment id
      (fun s => (Except.ok s.length : Except Unit ℕ)) "m"
      ([[⟨"ab", some "s", none, none⟩],
        [⟨"c", none, none, none⟩]] : List (List (Doc ℕ))) rfl
  refine ⟨?_, ?_, ?_⟩
  · rw [h.1]
    rfl
  · rw [h.2.1]
    rfl
  · have hx := h.2.2.1
    have hy : exceptMapM (fun s => (Except.ok s.length : Except Unit ℕ))
        (List.map Doc.text
          ([[⟨"ab", some "s", none, none⟩],
            [⟨"c", none, none, none⟩]] : List (List (Doc ℕ))).flatten)
        = Except.ok [2, 1] := rfl
    rw [hy] at hx
    exact (Except.ok.injEq _ _).mp hx.symm

/-- C9: persisting a resident namespace and reloading it in a fresh process
(empty in-memory maps, same disk) yields `get_documents` output identical in
order and content to the output before persistence. -/
theorem save_load_roundtrip {Vec Val : Type} [DecidableEq Val]
    (keyFn : String → String) (st : VStore Vec Val) (ns : String)
    (vecs : List Vec) (recs : List (Record Val))
    (hv : dictGet st.indices ns = some vecs)
    (hm : dictGet st.metadata ns = some recs) :
    (getDocuments keyFn (freshProcess (saveModule keyFn st ns)) ns none).2
      = (getDocuments keyFn st ns none).2 := by
  unfold getDocuments saveModule freshProcess loadModule
  simp only [hv, hm, dictGet_nil, Option.isNone_none, if_true,
    Option.isSome_none, Bool.false_eq_true, false_and, if_false,
    dictGet_dictSet_self, Option.isNone_some]

/-- C9 witness: a concrete store with one stored record round-trips. -/
theorem save_load_roundtrip_witness :
    (getDocuments id (freshProcess (saveModule id
        (⟨[("m", [7])], [("m", [⟨"s", "u", "t", []⟩])], []⟩ : VStore ℕ ℕ)
        "m")) "m" none).2
      = (getDocuments id
        (⟨[("m", [7])], [("m", [⟨"s", "u", "t", []⟩])], []⟩ : VStore ℕ ℕ)
        "m" none).2 :=
  save_load_roundtrip id
    (⟨[("m", [7])], [("m", [⟨"s", "u", "t", []⟩])], []⟩ : VStore ℕ ℕ)
    "m" [7] [⟨"s", "u", "t", []⟩] rfl rfl

/-- C10: a filter key whose expected value is Python `None` is ignored by
the search filter and by the `get_documents` filter: every document passes
that key's check whether or not the key occurs in its metadata, and a
filters map whose values are all `None` selects every document. -/
theorem none_filters_ignored {Vec Val : Type} [DecidableEq Val] :
    (∀ (k : String) (rest : List (String × FilterSpec Val))
        (meta : List (String × PyV Val)),
      matchesFilters (some ((k, FilterSpec.fnone) :: rest)) meta
        = matchesFilters (some rest) meta)
    ∧ (∀ (fs : List (String × FilterSpec Val))
        (meta : List (String × PyV Val)),
        (∀ p ∈ fs, p.2 = FilterSpec.fnone) →
        matchesFilters (some fs) meta = true)
    ∧ (∀ (fs : List (String × FilterSpec Val))
        (meta : List (String × PyV Val)),
        (∀ p ∈ fs, p.2 = FilterSpec.fnone) →
        docPassesFilters fs meta = true)
    ∧ (∀ (keyFn : String → String) (st : VStore Vec Val) (ns : String)
        (fs : List (String × FilterSpec Val)),
        (∀ p ∈ fs, p.2 = FilterSpec.fnone) →
        (getDocuments keyFn st ns (some fs)).2
          = (getDocuments keyFn st ns none).2) := by
  have hall : ∀ (fs : List (String × FilterSpec Val))
      (meta : List (String × PyV Val)),
      (∀ p ∈ fs, p.2 = FilterSpec.fnone) →
      (fs.all (fun p =>
        match p.2 with
        | .fnone => true
        | .fmem vs => decide (metaGet meta p.1 ∈ vs)
        | .feqv v => decide (metaGet meta p.1 = some v))) = true := by
    intro fs meta h
    rw [List.all_eq_true]
    intro p hp
    rw [h p hp]
  refine ⟨?_, ?_, ?_, ?_⟩
  · intro k rest meta
    cases rest with
    | nil => rfl
    | cons q t => simp [matchesFilters]
  · intro fs meta h
    unfold matchesFilters
    by_cases he : fs.isEmpty
    · simp [he]
    · simp only [he, if_false]
      exact hall fs meta h
  · intro fs meta h
    unfold docPassesFilters
    exact hall fs meta h
  · intro keyFn st ns fs h
    unfold getDocuments
    dsimp only
    cases hm : dictGet (if (dictGet st.metadata ns).isNone
        then (loadModule keyFn st ns).1 else st).metadata ns with
    | none => rfl
    | some docs =>
      simp only [hm]
      by_cases he : fs.isEmpty
      · simp [he]
      · simp only [he, Bool.false_eq_true, if_false]
        have hfix : docs.filter (fun d => docPassesFilters fs d.metadata)
            = docs := by
          apply List.filter_eq_self.mpr
          intro d hd
          unfold docPassesFilters
          exact hall fs d.metadata h
        rw [hfix]

/-- C10 witness: an all-`None` filters map selects every stored document. -/
theorem none_filters_ignored_witness :
    (getDocuments id
      (⟨[("m", [7])], [("m", [⟨"s", "u", "t", [("k", some 1)]⟩,
          ⟨"s2", "u2", "t2", []⟩])], []⟩ : VStore ℕ ℕ)
      "m" (some [("chunk", FilterSpec.fnone), ("kind", FilterSpec.fnone)])).2
    = (getDocuments id
      (⟨[("m", [7])], [("m", [⟨"s", "u", "t", [("k", some 1)]⟩,
          ⟨"s2", "u2", "t2", []⟩])], []⟩ : VStore ℕ ℕ) "m" none).2 := by
  exact (@none_filters_ignored ℕ ℕ _).2.2.2 id
    (⟨[("m", [7])], [("m", [⟨"s", "u", "t", [("k", some 1)]⟩,
        ⟨"s2", "u2", "t2", []⟩])], []⟩ : VStore ℕ ℕ) "m"
    [("chunk", FilterSpec.fnone), ("kind", FilterSpec.fnone)]
    (by decide)

/-- C2 (amended): a ProviderError raised while embedding the query is caught
by the `except` block inside `search` itself, which returns the empty list:
the caller observes a normal `[]` ("no results") return value; the error is
not propagated. -/
theorem search_empty_on_provider_error {Vec Val PErr : Type}
    [DecidableEq Val] (keyFn : String → String)
    (embed : String → Except PErr Vec)
    (indexSearch : List Vec → Vec → ℕ → List (ℤ × ℚ))
    (st : VStore Vec Val) (ns query : String) (topK : ℕ)
    (mf : Option (List (String × FilterSpec Val))) (ofk : ℕ) (e : PErr)
    (he : embed query = .error e) :
    (search keyFn embed indexSearch st ns query topK mf ofk).2 = [] := by
  unfold search searchCore
  cases h : dictGet (if (dictGet st.indices ns).isNone
      then (loadModule keyFn st ns).1 else st).indices ns with
  | none => simp [h]
  | some vecs => simp [h, he]

/-- C2 witness: the amended behaviour at a concrete store with a resident
namespace and an always-failing provider. -/
theorem search_empty_on_provider_error_witness :
    (search id (fun _ => (Except.error () : Except Unit ℕ))
      (fun _ _ _ => [((0 : ℤ), (0 : ℚ))])
      (⟨[("m", [5])], [("m", [⟨"s", "u", "t", []⟩])], []⟩ : VStore ℕ ℕ)
      "m" "q" 5 none 25).2 = [] :=
  search_empty_on_provider_error id
    (fun _ => (Except.error () : Except Unit ℕ))
    (fun _ _ _ => [((0 : ℤ), (0 : ℚ))])
    (⟨[("m", [5])], [("m", [⟨"s", "u", "t", []⟩])], []⟩ : VStore ℕ ℕ)
    "m" "q" 5 none 25 () rfl

/-- C2 counterexample: at the same concrete input, the `try`-body of
`search` raises a ProviderError (`searchCore` returns `error`), yet
`search` itself returns the normal value `[]` to its caller — the error is
converted to a normal return inside `search`, not propagated for the caller
to handle. -/
theorem search_swallows_provider_error :
    (searchCore (fun _ => (Except.error () : Except Unit ℕ))
      (fun _ _ _ => [((0 : ℤ), (0 : ℚ))])
      (⟨[("m", [5])], [("m", [⟨"s", "u", "t", []⟩])], []⟩ : VStore ℕ ℕ)
      "m" "q" 5 none 25 = Except.error ())
    ∧ (search id (fun _ => (Except.error () : Except Unit ℕ))
      (fun _ _ _ => [((0 : ℤ), (0 : ℚ))])
      (⟨[("m", [5])], [("m", [⟨"s", "u", "t", []⟩])], []⟩ : VStore ℕ ℕ)
      "m" "q" 5 none 25).2 = [] := by
  exact ⟨rfl, rfl⟩

/-! ## Dependency-graph executor (`backend/optimizations/agent_dag.py`)

`AgentDAG` runs named asynchronous agents in dependency-ordered parallel
batches.  The embedding is deterministic: an executor is a function of the
node's context returning `Except E V`, where an `error` models both a
raised exception and an `asyncio.wait_for` timeout — exactly the two shapes
`asyncio.gather(..., return_exceptions=True)` delivers.  Within one batch
every context is built from the pre-batch `self.results` (tasks are created
before any result of the batch is stored), so the set-iteration order of
`ready` has no observable effect on the result/error maps; the model uses
the node-registration order. -/

/-- A kwargs context: maps names to values, where the stored value `none`
is the null marker of a failed dependency. -/
abbrev Ctx (V : Type) := List (String × Option V)

/-- `AgentNode`: name, declared dependencies, executor.  The `timeout`
field only determines whether `asyncio.wait_for` raises, which the
executor's `error` outcome already captures. -/
structure AgentNode (V E : Type) where
  name : String
  dependencies : List String
  executor : Ctx V → Except E V

/-- `AgentDAG`: `self.nodes`, a name-keyed dict in registration order. -/
structure AgentDAG (V E : Type) where
  nodes : List (AgentNode V E)

/-- Lookup of `self.nodes[name]`. -/
def findNode {V E : Type} : List (AgentNode V E) → String →
    Option (AgentNode V E)
  | [], _ => none
  | n :: t, name => if n.name = name then some n else findNode t name

/-- `self.nodes[name] = node`: dict assignment keyed by name. -/
def setNode {V E : Type} (l : List (AgentNode V E)) (nd : AgentNode V E) :
    List (AgentNode V E) :=
  if (findNode l nd.name).isSome then
    l.map (fun n => if n.name = nd.name then nd else n)
  else l ++ [nd]

/-- `AgentDAG.add_agent`: raises on a self-dependency and on the
immediately detectable two-node cycle (`name` occurs in the dependencies of
one of its own dependencies); otherwise registers the node. -/
def AgentDAG.addAgent {V E : Type} (g : AgentDAG V E) (name : String)
    (dependencies : List String) (executor : Ctx V → Except E V) :
    Except String (AgentDAG V E) :=
  if name ∈ dependencies then
    .error "Agent cannot depend on itself"
  else if dependencies.any (fun dep =>
      match findNode g.nodes dep with
      | some nd => decide (name ∈ nd.dependencies)
      | none => false) then
    .error "Circular dependency detected"
  else
    .ok ⟨setNode g.nodes ⟨name, dependencies, executor⟩⟩

/-- `_get_ready_agents`: uncompleted nodes whose dependencies are all
completed. -/
def readyAgents {V E : Type} (nodes : List (AgentNode V E))
    (completed : List String) : List (AgentNode V E) :=
  nodes.filter (fun n => n.name ∉ completed
    ∧ n.dependencies.all (fun d => decide (d ∈ completed)))

/-- The context construction of `execute`:
`agent_context = context.copy()`, then
`agent_context[dep] = self.results[dep]` for each declared dependency
already present in the results map — the caller-supplied initial context
merged with the results of the node's declared dependencies only. -/
def buildAgentContext {V : Type} (ctx : Ctx V) (results : Ctx V)
    (deps : List String) : Ctx V :=
  deps.foldl (fun acc dep =>
    match dictGet results dep with
    | some r => dictSet acc dep r
    | none => acc) ctx

/-- Result processing for one launched node of a batch (`results` is the
pre-batch result map from which all contexts of the batch are built): an
`ok` stores the value, an `error` stores the `None` marker in the results
and the exception in the error map; the node is marked completed either
way. -/
def runBatchStep {V E : Type} (ctx results : Ctx V)
    (acc : Ctx V × List (String × E) × List String) (n : AgentNode V E) :
    Ctx V × List (String × E) × List String :=
  match n.executor (buildAgentContext ctx results n.dependencies) with
  | .ok v =>
    (dictSet acc.1 n.name (some v), acc.2.1, acc.2.2 ++ [n.name])
  | .error e =>
    (dictSet acc.1 n.name none, dictSet acc.2.1 n.name e,
      acc.2.2 ++ [n.name])

/-- One frontier batch: every ready node runs on a context built from the
pre-batch results, and results, errors and completion are recorded for the
whole batch. -/
def runBatch {V E : Type} (ctx : Ctx V) (results : Ctx V)
    (errors : List (String × E)) (completed : List String)
    (ready : List (AgentNode V E)) :
    Ctx V × List (String × E) × List String :=
  ready.foldl (runBatchStep ctx results) (results, errors, completed)

/-- The `while len(completed) < len(self.nodes)` loop of `execute`, fuelled
form: each iteration completes at least one node, so
`nodes.length + 1` fuel always suffices and the 0-fuel branch is
unreachable from `execute` (it mirrors the cycle error so that no fabricated
success value exists).  When no node is ready but some are uncompleted, the
run fails with the set of unresolved names
(`set(self.nodes.keys()) - completed`). -/
def executeLoop {V E : Type} (nodes : List (AgentNode V E)) (ctx : Ctx V) :
    ℕ → Ctx V → List (String × E) → List String →
    Except (List String) (Ctx V × List (String × E))
  | 0, _, _, completed =>
    .error ((nodes.map AgentNode.name).filter (fun x => x ∉ completed))
  | fuel + 1, results, errors, completed =>
    if completed.length < nodes.length then
      let ready := readyAgents nodes completed
      if ready.isEmpty then
        .error ((nodes.map AgentNode.name).filter (fun x => x ∉ completed))
      else
        let step := runBatch ctx results errors completed ready
        executeLoop nodes ctx fuel step.1 step.2.1 step.2.2
    else
      .ok (results, errors)

/-- `AgentDAG.execute`: an empty graph returns empty maps; otherwise the
batch loop runs to completion (full result and error maps) or raises the
circular-dependency error. -/
def AgentDAG.execute {V E : Type} (g : AgentDAG V E) (ctx : Ctx V) :
    Except (List String) (Ctx V × List (String × E)) :=
  if g.nodes.isEmpty then .ok ([], [])
  else executeLoop g.nodes ctx (g.nodes.length + 1) [] [] []

/-- `a` depends on `b` in the registered node set. -/
def depEdge {V E : Type} (nodes : List (AgentNode V E)) (a b : String) :
    Prop :=
  ∃ n ∈ nodes, n.name = a ∧ b ∈ n.dependencies

/-- The names in `rem` contain a dependency cycle staying inside `rem`. -/
def hasCycleAmong {V E : Type} (nodes : List (AgentNode V E))
    (rem : List String) : Prop :=
  ∃ x ∈ rem, Relation.TransGen
    (fun a b => depEdge nodes a b ∧ a ∈ rem ∧ b ∈ rem) x x

/-! ### Executor: supporting lemmas -/

theorem dictGet_eq_none_iff {α : Type} (l : List (String × α)) (k : String) :
    dictGet l k = none ↔ k ∉ l.map Prod.fst := by
  induction l with
  | nil => simp
  | cons p t ih =>
    obtain ⟨k₀, v₀⟩ := p
    by_cases h : k₀ = k
    · subst h
      simp
    · have h' : ¬ (k = k₀) := fun hc => h hc.symm
      simp [h, h', ih]

theorem map_fst_dictSet_fresh {α : Type} (l : List (String × α))
    (k : String) (v : α) (h : k ∉ l.map Prod.fst) :
    (dictSet l k v).map Prod.fst = l.map Prod.fst ++ [k] := by
  unfold dictSet
  have hnone : dictGet l k = none := (dictGet_eq_none_iff l k).mpr h
  simp [hnone]

/-- In a finite nonempty set of names in which every name has an outgoing
edge back into the set, there is a cycle (pigeonhole along the iterated
successor). -/
theorem exists_cycle_of_forall_succ {R : String → String → Prop}
    (s : List String) (hne : s ≠ [])
    (hsucc : ∀ x ∈ s, ∃ y, y ∈ s ∧ R x y) :
    ∃ x ∈ s, Relation.TransGen (fun a b => R a b ∧ a ∈ s ∧ b ∈ s) x x := by
  classical
  have hchoice : ∀ x, ∃ y, x ∈ s → (y ∈ s ∧ R x y) := by
    intro x
    by_cases hx : x ∈ s
    · obtain ⟨y, hy⟩ := hsucc x hx
      exact ⟨y, fun _ => hy⟩
    · exact ⟨x, fun hc => absurd hc hx⟩
  choose g hg using hchoice
  have hiter : ∀ (k : ℕ) (y : String), y ∈ s → g^[k] y ∈ s := by
    intro k
    induction k with
    | zero => intro y hy; simpa using hy
    | succ k ih =>
      intro y hy
      rw [Function.iterate_succ_apply]
      exact ih (g y) (hg y hy).1
  obtain ⟨x0, hx0⟩ : ∃ x, x ∈ s := by
    cases s with
    | nil => exact absurd rfl hne
    | cons a t => exact ⟨a, List.mem_cons_self a t⟩
  have hchain : ∀ (m : ℕ) (y : String), y ∈ s → 0 < m →
      Relation.TransGen (fun a b => R a b ∧ a ∈ s ∧ b ∈ s) y (g^[m] y) := by
    intro m
    induction m with
    | zero => intro y hy hm; omega
    | succ m ih =>
      intro y hy _
      rcases Nat.eq_zero_or_pos m with h0 | hpos
      · subst h0
        simpa using Relation.TransGen.single ⟨(hg y hy).2, hy, (hg y hy).1⟩
      · have hmem := hiter m y hy
        have hstep : (fun a b => R a b ∧ a ∈ s ∧ b ∈ s) (g^[m] y)
            (g^[m + 1] y) := by
          rw [Function.iterate_succ_apply']
          exact ⟨(hg _ hmem).2, hmem, (hg _ hmem).1⟩
        exact (ih y hy hpos).tail hstep
  set t := s.toFinset with ht
  have hmemt : ∀ k : ℕ, g^[k] x0 ∈ t :=
    fun k => List.mem_toFinset.mpr (hiter k x0 hx0)
  have hlt : Fintype.card {y // y ∈ t} < Fintype.card (Fin (t.card + 1)) := by
    simp [Fintype.card_coe]
  obtain ⟨i, j, hij, heq⟩ := Fintype.exists_ne_map_eq_of_card_lt
    (fun k : Fin (t.card + 1) => (⟨g^[(k : ℕ)] x0, hmemt _⟩ : {y // y ∈ t}))
    hlt
  have hval : g^[(i : ℕ)] x0 = g^[(j : ℕ)] x0 := by
    simpa [Subtype.mk.injEq] using heq
  have hvalne : (i : ℕ) ≠ (j : ℕ) := fun hc => hij (Fin.val_injective hc)
  rcases Nat.lt_or_ge (i : ℕ) (j : ℕ) with hij' | hge
  · refine ⟨g^[(i : ℕ)] x0, hiter _ x0 hx0, ?_⟩
    have hc := hchain ((j : ℕ) - (i : ℕ)) (g^[(i : ℕ)] x0)
      (hiter _ x0 hx0) (by omega)
    rw [← Function.iterate_add_apply, Nat.sub_add_cancel (le_of_lt hij')]
      at hc
    rw [← hval] at hc
    exact hc
  · have hij'' : (j : ℕ) < (i : ℕ) := by omega
    refine ⟨g^[(j : ℕ)] x0, hiter _ x0 hx0, ?_⟩
    have hc := hchain ((i : ℕ) - (j : ℕ)) (g^[(j : ℕ)] x0)
      (hiter _ x0 hx0) (by omega)
    rw [← Function.iterate_add_apply, Nat.sub_add_cancel (le_of_lt hij'')]
      at hc
    rw [hval] at hc
    exact hc

/-- What one batch fold does to the three accumulators: completion and
result keys extend by the batch names in order; entries outside the batch
are untouched; each batch node's entry reflects its executor's outcome on
the context built from the pre-batch results. -/
theorem runBatchFold_spec {V E : Type} (ctx results : Ctx V) :
    ∀ (ready : List (AgentNode V E)) (res : Ctx V)
      (errs : List (String × E)) (comp : List String),
      (∀ n ∈ ready, n.name ∉ res.map Prod.fst) →
      (ready.map AgentNode.name).Nodup →
      ((ready.foldl (runBatchStep ctx results) (res, errs, comp)).2.2
          = comp ++ ready.map AgentNode.name)
      ∧ ((ready.foldl (runBatchStep ctx results) (res, errs, comp)).1.map
            Prod.fst
          = res.map Prod.fst ++ ready.map AgentNode.name)
      ∧ (∀ x, x ∉ ready.map AgentNode.name →
          dictGet (ready.foldl (runBatchStep ctx results)
              (res, errs, comp)).1 x = dictGet res x
          ∧ dictGet (ready.foldl (runBatchStep ctx results)
              (res, errs, comp)).2.1 x = dictGet errs x)
      ∧ (∀ n ∈ ready,
          (match n.executor (buildAgentContext ctx results n.dependencies)
              with
           | .ok v =>
              dictGet (ready.foldl (runBatchStep ctx results)
                  (res, errs, comp)).1 n.name = some (some v)
              ∧ dictGet (ready.foldl (runBatchStep ctx results)
                  (res, errs, comp)).2.1 n.name = dictGet errs n.name
           | .error e =>
              dictGet (ready.foldl (runBatchStep ctx results)
                  (res, errs, comp)).1 n.name = some none
              ∧ dictGet (ready.foldl (runBatchStep ctx results)
                  (res, errs, comp)).2.1 n.name = some e)) := by
  intro ready
  induction ready with
  | nil =>
    intro res errs comp _ _
    exact ⟨by simp, by simp, fun x _ => ⟨rfl, rfl⟩, fun n hn => absurd hn
      (List.not_mem_nil n)⟩
  | cons n rest ih =>
    intro res errs comp hres hnd
    simp only [List.map_cons, List.nodup_cons] at hnd
    have hn_res : n.name ∉ res.map Prod.fst := hres n (List.mem_cons_self n rest)
    have hn_rest : n.name ∉ rest.map AgentNode.name := hnd.1
    cases hexec : n.executor (buildAgentContext ctx results n.dependencies)
      with
    | ok v =>
      have hstep : runBatchStep ctx results (res, errs, comp) n
          = (dictSet res n.name (some v), errs, comp ++ [n.name]) := by
        unfold runBatchStep
        rw [hexec]
      have hres1 : ∀ m ∈ rest, m.name ∉ (dictSet res n.name
          (some v)).map Prod.fst := by
        intro m hm
        rw [map_fst_dictSet_fresh res n.name (some v) hn_res]
        simp only [List.mem_append, List.mem_singleton]
        rintro (hc | hc)
        · exact hres m (List.mem_cons_of_mem n hm) hc
        · exact hn_rest (hc ▸ List.mem_map_of_mem AgentNode.name hm)
      obtain ⟨ihA, ihB, ihC, ihD⟩ := ih (dictSet res n.name (some v)) errs
        (comp ++ [n.name]) hres1 hnd.2
      have hfold : (n :: rest).foldl (runBatchStep ctx results)
          (res, errs, comp)
          = rest.foldl (runBatchStep ctx results)
            (dictSet res n.name (some v), errs, comp ++ [n.name]) := by
        simp [List.foldl_cons, hstep]
      refine ⟨?_, ?_, ?_, ?_⟩
      · rw [hfold, ihA]
        simp
      · rw [hfold, ihB, map_fst_dictSet_fresh res n.name (some v) hn_res]
        simp
      · intro x hx
        simp only [List.map_cons, List.mem_cons] at hx
        push_neg at hx
        rw [hfold]
        obtain ⟨hC1, hC2⟩ := ihC x hx.2
        refine ⟨?_, hC2⟩
        rw [hC1, dictGet_dictSet_ne res x n.name (some v) hx.1]
      · intro m hm
        rcases List.mem_cons.mp hm with hm | hm
        · subst hm
          rw [hexec]
          rw [hfold]
          obtain ⟨hC1, hC2⟩ := ihC m.name hn_rest
          constructor
          · rw [hC1, dictGet_dictSet_self]
          · rw [hC2]
        · have := ihD m hm
          rw [hfold]
          cases hexec2 : m.executor
              (buildAgentContext ctx results m.dependencies) with
          | ok w =>
            rw [hexec2] at this
            exact this
          | error e2 =>
            rw [hexec2] at this
            exact this
    | error e =>
      have hstep : runBatchStep ctx results (res, errs, comp) n
          = (dictSet res n.name none, dictSet errs n.name e,
              comp ++ [n.name]) := by
        unfold runBatchStep
        rw [hexec]
      have hres1 : ∀ m ∈ rest, m.name ∉ (dictSet res n.name
          none).map Prod.fst := by
        intro m hm
        rw [map_fst_dictSet_fresh res n.name none hn_res]
        simp only [List.mem_append, List.mem_singleton]
        rintro (hc | hc)
        · exact hres m (List.mem_cons_of_mem n hm) hc
        · exact hn_rest (hc ▸ List.mem_map_of_mem AgentNode.name hm)
      obtain ⟨ihA, ihB, ihC, ihD⟩ := ih (dictSet res n.name none)
        (dictSet errs n.name e) (comp ++ [n.name]) hres1 hnd.2
      have hfold : (n :: rest).foldl (runBatchStep ctx results)
          (res, errs, comp)
          = rest.foldl (runBatchStep ctx results)
            (dictSet res n.name none, dictSet errs n.name e,
              comp ++ [n.name]) := by
        simp [List.foldl_cons, hstep]
      refine ⟨?_, ?_, ?_, ?_⟩
      · rw [hfold, ihA]
        simp
      · rw [hfold, ihB, map_fst_dictSet_fresh res n.name none hn_res]
        simp
      · intro x hx
        simp only [List.map_cons, List.mem_cons] at hx
        push_neg at hx
        rw [hfold]
        obtain ⟨hC1, hC2⟩ := ihC x hx.2
        constructor
        · rw [hC1, dictGet_dictSet_ne res x n.name none hx.1]
        · rw [hC2, dictGet_dictSet_ne errs x n.name e hx.1]
      · intro m hm
        rcases List.mem_cons.mp hm with hm | hm
        · subst hm
          rw [hexec]
          rw [hfold]
          obtain ⟨hC1, hC2⟩ := ihC m.name hn_rest
          constructor
          · rw [hC1, dictGet_dictSet_self]
          · rw [hC2, dictGet_dictSet_self]
        · have := ihD m hm
          rw [hfold]
          have hmn : m.name ≠ n.name := by
            intro hc
            exact hn_rest (hc ▸ List.mem_map_of_mem AgentNode.name hm)
          cases hexec2 : m.executor
              (buildAgentContext ctx results m.dependencies) with
          | ok w =>
            rw [hexec2] at this
            refine ⟨this.1, ?_⟩
            rw [this.2, dictGet_dictSet_ne errs m.name n.name e hmn]
          | error e2 =>
            rw [hexec2] at this
            exact this

theorem length_le_of_nodup_subset (l₁ l₂ : List String) (hnd : l₁.Nodup)
    (hsub : ∀ x ∈ l₁, x ∈ l₂) : l₁.length ≤ l₂.length := by
  calc l₁.length = l₁.toFinset.card := (List.toFinset_card_of_nodup hnd).symm
    _ ≤ l₂.toFinset.card := Finset.card_le_card (by
        intro x hx
        exact List.mem_toFinset.mpr (hsub x (List.mem_toFinset.mp hx)))
    _ ≤ l₂.length := l₂.toFinset_card_le

theorem exists_uncompleted {V E : Type} (nodes : List (AgentNode V E))
    (completed : List String)
    (hnd : (nodes.map AgentNode.name).Nodup)
    (hlt : completed.length < nodes.length) :
    ∃ x, x ∈ nodes.map AgentNode.name ∧ x ∉ completed := by
  by_contra h
  push_neg at h
  have := length_le_of_nodup_subset (nodes.map AgentNode.name) completed hnd h
  rw [List.length_map] at this
  omega

theorem all_completed {V E : Type} (nodes : List (AgentNode V E))
    (completed : List String)
    (hnd : (nodes.map AgentNode.name).Nodup)
    (hsub : ∀ c ∈ completed, c ∈ nodes.map AgentNode.name)
    (hcnd : completed.Nodup)
    (hge : nodes.length ≤ completed.length) :
    ∀ n ∈ nodes, n.name ∈ completed := by
  have hfin : completed.toFinset = (nodes.map AgentNode.name).toFinset := by
    apply Finset.eq_of_subset_of_card_le
    · intro x hx
      exact List.mem_toFinset.mpr (hsub x (List.mem_toFinset.mp hx))
    · rw [List.toFinset_card_of_nodup hnd, List.toFinset_card_of_nodup hcnd,
        List.length_map]
      exact hge
  intro n hn
  have : n.name ∈ (nodes.map AgentNode.name).toFinset :=
    List.mem_toFinset.mpr (List.mem_map_of_mem AgentNode.name hn)
  rw [← hfin] at this
  exact List.mem_toFinset.mp this

/-- When no node is ready but some remain, every remaining node has a
dependency among the remaining nodes (given closed dependencies), so the
remaining names contain a cycle. -/
theorem cycle_of_ready_empty {V E : Type} (nodes : List (AgentNode V E))
    (completed : List String)
    (hclosed : ∀ n ∈ nodes, ∀ d ∈ n.dependencies,
      d ∈ nodes.map AgentNode.name)
    (hready : readyAgents nodes completed = [])
    (hne : (nodes.map AgentNode.name).filter (fun x => x ∉ completed)
      ≠ []) :
    hasCycleAmong nodes
      ((nodes.map AgentNode.name).filter (fun x => x ∉ completed)) := by
  apply exists_cycle_of_forall_succ
    ((nodes.map AgentNode.name).filter (fun x => x ∉ completed)) hne
  intro x hx
  rw [List.mem_filter] at hx
  obtain ⟨hxn, hxc⟩ := hx
  have hxc : x ∉ completed := by simpa using hxc
  obtain ⟨n, hn, hname⟩ := List.mem_map.mp hxn
  have hnotready : ∀ m ∈ nodes,
      ¬ (decide (m.name ∉ completed)
        && m.dependencies.all (fun d => decide (d ∈ completed))) = true := by
    intro m hm
    have := List.filter_eq_nil_iff.mp hready m hm
    simpa using this
  have := hnotready n hn
  rw [hname] at this
  simp only [Bool.and_eq_true, decide_eq_true_eq, not_and, List.all_eq_true]
    at this
  have hdep : ∃ d ∈ n.dependencies, d ∉ completed := by
    by_contra hco
    push_neg at hco
    exact this hxc (fun d hd => by simpa using decide_eq_true (hco d hd))
  obtain ⟨d, hd, hdc⟩ := hdep
  refine ⟨d, ?_, ⟨n, hn, hname, hd⟩⟩
  rw [List.mem_filter]
  exact ⟨hclosed n hn d hd, by simpa using hdc⟩

/-- A rank function decreasing along dependency edges certifies
acyclicity. -/
theorem acyclic_of_rank {V E : Type} (nodes : List (AgentNode V E))
    (f : String → ℕ) (hf : ∀ a b, depEdge nodes a b → f b < f a) :
    ¬ ∃ x, Relation.TransGen (depEdge nodes) x x := by
  rintro ⟨x, hx⟩
  have hlt : ∀ a b, Relation.TransGen (depEdge nodes) a b → f b < f a := by
    intro a b h
    induction h with
    | single h => exact hf _ _ h
    | tail h₁ h₂ ih => exact lt_trans (hf _ _ h₂) ih
  exact lt_irrefl _ (hlt x x hx)

theorem readyAgents_facts {V E : Type} (nodes : List (AgentNode V E))
    (completed : List String)
    (hnd : (nodes.map AgentNode.name).Nodup) :
    (∀ n ∈ readyAgents nodes completed, n ∈ nodes ∧ n.name ∉ completed)
    ∧ ((readyAgents nodes completed).map AgentNode.name).Nodup := by
  constructor
  · intro n hn
    have hmem := List.mem_of_mem_filter hn
    have hp := List.of_mem_filter hn
    simp only [Bool.and_eq_true, decide_eq_true_eq] at hp
    exact ⟨hmem, hp.1⟩
  · have hsub : List.Sublist
        ((readyAgents nodes completed).map AgentNode.name)
        (nodes.map AgentNode.name) :=
      (List.filter_sublist _).map _
    exact hnd.sublist hsub

theorem runBatch_spec {V E : Type} (ctx results : Ctx V)
    (errors : List (String × E)) (completed : List String)
    (ready : List (AgentNode V E))
    (hres : ∀ n ∈ ready, n.name ∉ results.map Prod.fst)
    (hndr : (ready.map AgentNode.name).Nodup) :
    ((runBatch ctx results errors completed ready).2.2
        = completed ++ ready.map AgentNode.name)
    ∧ ((runBatch ctx results errors completed ready).1.map Prod.fst
        = results.map Prod.fst ++ ready.map AgentNode.name)
    ∧ (∀ x, x ∉ ready.map AgentNode.name →
        dictGet (runBatch ctx results errors completed ready).1 x
          = dictGet results x
        ∧ dictGet (runBatch ctx results errors completed ready).2.1 x
          = dictGet errors x)
    ∧ (∀ n ∈ ready,
        (match n.executor (buildAgentContext ctx results n.dependencies)
            with
         | .ok v =>
            dictGet (runBatch ctx results errors completed ready).1 n.name
              = some (some v)
            ∧ dictGet (runBatch ctx results errors completed ready).2.1
                n.name = dictGet errors n.name
         | .error e =>
            dictGet (runBatch ctx results errors completed ready).1 n.name
              = some none
            ∧ dictGet (runBatch ctx results errors completed ready).2.1
                n.name = some e)) :=
  runBatchFold_spec ctx results ready results errors completed hres hndr

/-- What the while-loop does when it raises: the unresolved names are a
nonempty subset of the registered names, and (when every dependency names a
registered node) they contain a dependency cycle. -/
theorem executeLoop_error {V E : Type} (nodes : List (AgentNode V E))
    (ctx : Ctx V)
    (hnd : (nodes.map AgentNode.name).Nodup)
    (hclosed : ∀ n ∈ nodes, ∀ d ∈ n.dependencies,
      d ∈ nodes.map AgentNode.name) :
    ∀ (fuel : ℕ) (results : Ctx V) (errors : List (String × E))
      (completed : List String),
      results.map Prod.fst = completed →
      (∀ c ∈ completed, c ∈ nodes.map AgentNode.name) →
      completed.Nodup →
      nodes.length - completed.length < fuel →
      ∀ rem, executeLoop nodes ctx fuel results errors completed
          = .error rem →
      rem ≠ [] ∧ (∀ x ∈ rem, x ∈ nodes.map AgentNode.name)
        ∧ hasCycleAmong nodes rem := by
  intro fuel
  induction fuel with
  | zero =>
    intro results errors completed _ _ _ hfuel rem _
    omega
  | succ fuel ih =>
    intro results errors completed hkeys hsub hcnd hfuel rem hrun
    simp only [executeLoop] at hrun
    by_cases hlt : completed.length < nodes.length
    · rw [if_pos hlt] at hrun
      by_cases hempty : (readyAgents nodes completed).isEmpty
      · rw [if_pos hempty] at hrun
        have hrem : rem = (nodes.map AgentNode.name).filter
            (fun x => x ∉ completed) := by
          cases hrun
          rfl
        subst hrem
        obtain ⟨x, hxn, hxc⟩ := exists_uncompleted nodes completed hnd hlt
        have hxmem : x ∈ (nodes.map AgentNode.name).filter
            (fun x => x ∉ completed) := by
          rw [List.mem_filter]
          exact ⟨hxn, by simpa using hxc⟩
        refine ⟨List.ne_nil_of_mem hxmem, ?_, ?_⟩
        · intro y hy
          exact (List.mem_filter.mp hy).1
        · exact cycle_of_ready_empty nodes completed hclosed
            (List.isEmpty_iff.mp hempty) (List.ne_nil_of_mem hxmem)
      · rw [if_neg hempty] at hrun
        obtain ⟨hrfacts, hndr⟩ := readyAgents_facts nodes completed hnd
        have hres : ∀ n ∈ readyAgents nodes completed,
            n.name ∉ results.map Prod.fst := by
          intro n hn
          rw [hkeys]
          exact (hrfacts n hn).2
        obtain ⟨hA, hB, _, _⟩ := runBatch_spec ctx results errors completed
          (readyAgents nodes completed) hres hndr
        have hready_ne : readyAgents nodes completed ≠ [] := by
          intro hc
          rw [hc] at hempty
          exact hempty rfl
        have hready_len : 1 ≤ (readyAgents nodes completed).length := by
          cases hr : readyAgents nodes completed with
          | nil => exact absurd hr hready_ne
          | cons a t => simp
        apply ih _ _ _ _ _ _ _ rem hrun
        · rw [hB, hkeys, hA]
        · rw [hA]
          intro c hc
          rcases List.mem_append.mp hc with hc | hc
          · exact hsub c hc
          · obtain ⟨n, hn, hname⟩ := List.mem_map.mp hc
            exact hname ▸ List.mem_map_of_mem AgentNode.name (hrfacts n hn).1
        · rw [hA, List.nodup_append]
          refine ⟨hcnd, hndr, ?_⟩
          intro a ha hb
          obtain ⟨n, hn, hname⟩ := List.mem_map.mp hb
          exact (hrfacts n hn).2 (hname ▸ ha)
        · rw [hA, List.length_append, List.length_map]
          omega
    · rw [if_neg hlt] at hrun
      cases hrun

/-- Per-node facts recorded by a completed run: every node has an entry in
the result map; a node whose executor fails on every context has the null
marker stored and its exception recorded in the error map; a node whose
executor succeeds on every context has a populated value and no recorded
error. -/
def nodeOutcomes {V E : Type} (res : Ctx V) (errs : List (String × E))
    (n : AgentNode V E) : Prop :=
  (∃ r, dictGet res n.name = some r)
  ∧ ((∀ c, ∃ e, n.executor c = .error e) →
      dictGet res n.name = some none ∧ ∃ e, dictGet errs n.name = some e)
  ∧ ((∀ c, ∃ v, n.executor c = .ok v) →
      (∃ v, dictGet res n.name = some (some v))
        ∧ dictGet errs n.name = none)

/-- What the while-loop does when the dependency relation is acyclic and
closed: it terminates normally with full result and error maps satisfying
`nodeOutcomes` for every registered node — node failures never abort the
run. -/
theorem executeLoop_ok {V E : Type} (nodes : List (AgentNode V E))
    (ctx : Ctx V)
    (hnd : (nodes.map AgentNode.name).Nodup)
    (hclosed : ∀ n ∈ nodes, ∀ d ∈ n.dependencies,
      d ∈ nodes.map AgentNode.name)
    (hacyc : ¬ ∃ x, Relation.TransGen (depEdge nodes) x x) :
    ∀ (fuel : ℕ) (results : Ctx V) (errors : List (String × E))
      (completed : List String),
      results.map Prod.fst = completed →
      (∀ c ∈ completed, c ∈ nodes.map AgentNode.name) →
      completed.Nodup →
      (∀ x, (dictGet errors x).isSome → x ∈ completed) →
      nodes.length - completed.length < fuel →
      (∀ n ∈ nodes, n.name ∈ completed → nodeOutcomes results errors n) →
      ∃ res errs, executeLoop nodes ctx fuel results errors completed
          = .ok (res, errs)
        ∧ ∀ n ∈ nodes, nodeOutcomes res errs n := by
  intro fuel
  induction fuel with
  | zero =>
    intro results errors completed _ _ _ _ hfuel _
    omega
  | succ fuel ih =>
    intro results errors completed hkeys hsub hcnd herrs hfuel hdone
    simp only [executeLoop]
    by_cases hlt : completed.length < nodes.length
    · rw [if_pos hlt]
      have hready_ne : readyAgents nodes completed ≠ [] := by
        intro hready
        obtain ⟨x, hxn, hxc⟩ := exists_uncompleted nodes completed hnd hlt
        have hxmem : x ∈ (nodes.map AgentNode.name).filter
            (fun x => x ∉ completed) := by
          rw [List.mem_filter]
          exact ⟨hxn, by simpa using hxc⟩
        obtain ⟨y, hy, hcyc⟩ := cycle_of_ready_empty nodes completed hclosed
          hready (List.ne_nil_of_mem hxmem)
        exact hacyc ⟨y, hcyc.mono (fun a b hab => hab.1)⟩
      have hempty : ¬ (readyAgents nodes completed).isEmpty := by
        intro hc
        exact hready_ne (List.isEmpty_iff.mp hc)
      rw [if_neg hempty]
      obtain ⟨hrfacts, hndr⟩ := readyAgents_facts nodes completed hnd
      have hres : ∀ n ∈ readyAgents nodes completed,
          n.name ∉ results.map Prod.fst := by
        intro n hn
        rw [hkeys]
        exact (hrfacts n hn).2
      obtain ⟨hA, hB, hC, hD⟩ := runBatch_spec ctx results errors completed
        (readyAgents nodes completed) hres hndr
      have hready_len : 1 ≤ (readyAgents nodes completed).length := by
        cases hr : readyAgents nodes completed with
        | nil => exact absurd hr hready_ne
        | cons a t => simp
      apply ih
      · rw [hB, hkeys, hA]
      · rw [hA]
        intro c hc
        rcases List.mem_append.mp hc with hc | hc
        · exact hsub c hc
        · obtain ⟨n, hn, hname⟩ := List.mem_map.mp hc
          exact hname ▸ List.mem_map_of_mem AgentNode.name (hrfacts n hn).1
      · rw [hA, List.nodup_append]
        refine ⟨hcnd, hndr, ?_⟩
        intro a ha hb
        obtain ⟨n, hn, hname⟩ := List.mem_map.mp hb
        exact (hrfacts n hn).2 (hname ▸ ha)
      · intro x hx
        rw [hA]
        by_cases hxr : x ∈ (readyAgents nodes completed).map AgentNode.name
        · exact List.mem_append_right completed hxr
        · obtain ⟨_, hCe⟩ := hC x hxr
          rw [hCe] at hx
          exact List.mem_append_left _ (herrs x hx)
      · rw [hA, List.length_append, List.length_map]
        omega
      · intro n hn hcomp
        rw [hA] at hcomp
        rcases List.mem_append.mp hcomp with hcomp | hcomp
        · have hnr : n.name ∉ (readyAgents nodes completed).map
              AgentNode.name := by
            intro hc
            obtain ⟨m, hm, hname⟩ := List.mem_map.mp hc
            exact (hrfacts m hm).2 (hname ▸ hcomp)
          obtain ⟨hC1, hC2⟩ := hC n.name hnr
          obtain ⟨h1, h2, h3⟩ := hdone n hn hcomp
          refine ⟨by rw [hC1]; exact h1, ?_, ?_⟩
          · intro hfail
            obtain ⟨ha, hb⟩ := h2 hfail
            exact ⟨by rw [hC1]; exact ha, by rw [hC2]; exact hb⟩
          · intro hsucc
            obtain ⟨ha, hb⟩ := h3 hsucc
            exact ⟨by rw [hC1]; exact ha, by rw [hC2]; exact hb⟩
        · obtain ⟨m, hm, hname⟩ := List.mem_map.mp hcomp
          obtain rfl : n = m :=
            List.inj_on_of_nodup_map hnd hn ((hrfacts m hm).1) hname.symm
          have hDn := hD n hm
          cases hex : n.executor
              (buildAgentContext ctx results n.dependencies) with
          | ok v =>
            rw [hex] at hDn
            refine ⟨⟨some v, hDn.1⟩, ?_, ?_⟩
            · intro hfail
              obtain ⟨e, he⟩ := hfail
                (buildAgentContext ctx results n.dependencies)
              rw [hex] at he
              cases he
            · intro _
              refine ⟨⟨v, hDn.1⟩, ?_⟩
              rw [hDn.2]
              exact Option.not_isSome_iff_eq_none.mp
                (fun hs => (hrfacts n hm).2 (herrs _ hs))
          | error e =>
            rw [hex] at hDn
            refine ⟨⟨none, hDn.1⟩, ?_, ?_⟩
            · intro _
              exact ⟨hDn.1, e, hDn.2⟩
            · intro hsucc
              obtain ⟨v, hv⟩ := hsucc
                (buildAgentContext ctx results n.dependencies)
              rw [hex] at hv
              cases hv
    · rw [if_neg hlt]
      refine ⟨results, errors, rfl, ?_⟩
      intro n hn
      exact hdone n hn (all_completed nodes completed hnd hsub hcnd
        (by omega) n hn)

/-- C4: node-failure isolation.  In any run of a well-formed graph (unique
names, dependencies naming registered nodes, acyclic), a node whose
executor raises (or times out) on every context has its exception recorded
in the per-node error map and its result set to the null marker, and is
completed; every other node — siblings and dependants alike — still gets an
entry in the result map, nodes with succeeding executors are populated with
no recorded error, and `run()` returns the full result map normally: a
single node failure never aborts the run. -/
theorem dag_failed_node_isolated {V E : Type} (g : AgentDAG V E)
    (ctx : Ctx V) (n : AgentNode V E)
    (hnd : (g.nodes.map AgentNode.name).Nodup)
    (hclosed : ∀ m ∈ g.nodes, ∀ d ∈ m.dependencies,
      d ∈ g.nodes.map AgentNode.name)
    (hacyc : ¬ ∃ x, Relation.TransGen (depEdge g.nodes) x x)
    (hn : n ∈ g.nodes)
    (hfail : ∀ c, ∃ e, n.executor c = .error e) :
    ∃ res errs, g.execute ctx = .ok (res, errs)
      ∧ dictGet res n.name = some none
      ∧ (∃ e, dictGet errs n.name = some e)
      ∧ (∀ m ∈ g.nodes, ∃ r, dictGet res m.name = some r)
      ∧ (∀ m ∈ g.nodes, (∀ c, ∃ v, m.executor c = .ok v) →
          (∃ v, dictGet res m.name = some (some v))
            ∧ dictGet errs m.name = none) := by
  have hne : ¬ (g.nodes.isEmpty = true) := by
    cases hng : g.nodes with
    | nil => rw [hng] at hn; cases hn
    | cons a t => simp
  obtain ⟨res, errs, hrun, hout⟩ := executeLoop_ok g.nodes ctx hnd hclosed
    hacyc (g.nodes.length + 1) [] [] [] rfl (by intro c hc; cases hc)
    List.nodup_nil (by intro x hx; simp [dictGet] at hx) (by omega)
    (by intro m _ hc; cases hc)
  refine ⟨res, errs, ?_, ?_, ?_, ?_, ?_⟩
  · unfold AgentDAG.execute
    rw [if_neg hne]
    exact hrun
  · exact ((hout n hn).2.1 hfail).1
  · exact ((hout n hn).2.1 hfail).2
  · intro m hm
    exact (hout m hm).1
  · intro m hm hsucc
    exact (hout m hm).2.2 hsucc

/-- The A/B/C example graph of the claim: `A` always fails, `B` (no
dependencies) always succeeds, `C` depends on `A` and returns 42 exactly
when it observes `A`'s null result in its context. -/
def exampleDagABC : AgentDAG ℕ String :=
  ⟨[⟨"A", [], fun _ => .error "boom"⟩,
    ⟨"B", [], fun _ => .ok 1⟩,
    ⟨"C", ["A"], fun c =>
      match dictGet c "A" with
      | some none => .ok 42
      | _ => .ok 0⟩]⟩

/-- C4 witness: on the A/B/C graph the theorem applies, and the run
computes to completion with `results["B"]` populated, `results["A"]` null
with the error recorded, and `C` executed observing `A`'s null result
(it returns 42, which it only does on seeing `A ↦ none`). -/
theorem dag_failed_node_isolated_witness :
    (∃ res errs, exampleDagABC.execute [] = .ok (res, errs)
      ∧ dictGet res "A" = some none
      ∧ (∃ e, dictGet errs "A" = some e)
      ∧ (∀ m ∈ exampleDagABC.nodes, ∃ r, dictGet res m.name = some r))
    ∧ exampleDagABC.execute []
      = .ok ([("A", none), ("B", some 1), ("C", some 42)],
          [("A", "boom")]) := by
  constructor
  · obtain ⟨res, errs, h1, h2, h3, h4, _⟩ :=
      dag_failed_node_isolated exampleDagABC []
        ⟨"A", [], fun _ => .error "boom"⟩
        (by decide)
        (by decide)
        (acyclic_of_rank _ (fun s => if s = "C" then 1 else 0) (by
          rintro a b ⟨nd, hnd, hna, hdep⟩
          simp only [exampleDagABC, List.mem_cons, List.mem_singleton]
            at hnd
          rcases hnd with rfl | rfl | rfl | h
          · cases hdep
          · cases hdep
          · simp only [List.mem_singleton] at hdep
            subst hdep
            subst hna
            simp
          · cases h))
        (List.mem_cons_self _ _)
        (fun _ => ⟨"boom", rfl⟩)
    exact ⟨res, errs, h1, h2, h3, h4⟩
  · rfl

/-- C5 (amended): whenever `run()` raises the circular-dependency error,
the reported unresolved names are a nonempty subset of the registered
names, and — provided every declared dependency names a registered node —
they contain a genuine dependency cycle.  (A node depending on an
unregistered name triggers the very same error with no cycle among the
remaining nodes; and the two-node cycle A↔B is rejected at registration
time by `add_agent` when built through the API, while a directly
constructed A↔B graph makes `run()` raise identifying exactly {A, B}
without hanging.) -/
theorem execute_cycle_error {V E : Type} (g : AgentDAG V E) (ctx : Ctx V)
    (rem : List String)
    (hnd : (g.nodes.map AgentNode.name).Nodup)
    (hclosed : ∀ n ∈ g.nodes, ∀ d ∈ n.dependencies,
      d ∈ g.nodes.map AgentNode.name)
    (hrun : g.execute ctx = .error rem) :
    rem ≠ [] ∧ (∀ x ∈ rem, x ∈ g.nodes.map AgentNode.name)
      ∧ hasCycleAmong g.nodes rem := by
  unfold AgentDAG.execute at hrun
  by_cases hne : g.nodes.isEmpty
  · rw [if_pos hne] at hrun
    cases hrun
  · rw [if_neg hne] at hrun
    exact executeLoop_error g.nodes ctx hnd hclosed (g.nodes.length + 1)
      [] [] [] rfl (by intro c hc; cases hc) List.nodup_nil (by omega)
      rem hrun

/-- C5 witness: the directly constructed two-node cycle A↔B makes `run()`
raise identifying exactly {A, B} (and not hang: `execute` is total), the
unresolved set does contain a cycle, and the same graph cannot even be
registered through `add_agent`, which rejects the second node. -/
theorem execute_cycle_error_witness :
    (AgentDAG.execute (⟨[⟨"A", ["B"], fun _ => .ok 0⟩,
        ⟨"B", ["A"], fun _ => .ok 0⟩]⟩ : AgentDAG ℕ String) []
      = .error ["A", "B"])
    ∧ hasCycleAmong (⟨[⟨"A", ["B"], fun _ => .ok 0⟩,
        ⟨"B", ["A"], fun _ => .ok 0⟩]⟩ : AgentDAG ℕ String).nodes
        ["A", "B"]
    ∧ (AgentDAG.addAgent (⟨[⟨"A", ["B"], fun _ => .ok 0⟩]⟩ :
          AgentDAG ℕ String) "B" ["A"] (fun _ => .ok 0)
        = .error "Circular dependency detected") := by
  have hrun : AgentDAG.execute (⟨[⟨"A", ["B"], fun _ => .ok 0⟩,
      ⟨"B", ["A"], fun _ => .ok 0⟩]⟩ : AgentDAG ℕ String) []
      = .error ["A", "B"] := rfl
  refine ⟨hrun, ?_, rfl⟩
  exact (execute_cycle_error (⟨[⟨"A", ["B"], fun _ => .ok 0⟩,
      ⟨"B", ["A"], fun _ => .ok 0⟩]⟩ : AgentDAG ℕ String) [] ["A", "B"]
    (by decide) (by decide) hrun).2.2

/-- C5 counterexample: the graph with the single node `A` depending on the
unregistered name `Z` — accepted by `add_agent` — makes `run()` raise the
circular-dependency error identifying {A}, yet the remaining node set {A}
contains no dependency cycle: the claim that the remaining nodes always
form a cycle is false. -/
theorem cycle_error_without_cycle :
    (AgentDAG.addAgent (⟨[]⟩ : AgentDAG ℕ String) "A" ["Z"]
        (fun _ => .ok 0)
      = .ok ⟨[⟨"A", ["Z"], fun _ => .ok 0⟩]⟩)
    ∧ (AgentDAG.execute (⟨[⟨"A", ["Z"], fun _ => .ok 0⟩]⟩ :
        AgentDAG ℕ String) [] = .error ["A"])
    ∧ ¬ hasCycleAmong (⟨[⟨"A", ["Z"], fun _ => .ok 0⟩]⟩ :
        AgentDAG ℕ String).nodes ["A"] := by
  refine ⟨rfl, rfl, ?_⟩
  rintro ⟨x, hx, htrans⟩
  have hR : ∀ a b : String,
      ¬ ((depEdge (⟨[⟨"A", ["Z"], fun _ => .ok 0⟩]⟩ :
          AgentDAG ℕ String).nodes a b) ∧ a ∈ ["A"] ∧ b ∈ ["A"]) := by
    rintro a b ⟨⟨nd, hnd, _, hdep⟩, _, hb⟩
    simp only [List.mem_singleton] at hnd hb
    subst hnd
    simp only [List.mem_singleton] at hdep
    subst hdep
    exact absurd hb (by decide)
  cases htrans with
  | single h => exact hR _ _ h
  | tail h₁ h₂ => exact hR _ _ h₂

/-- C6: the context a launched node receives is exactly the
caller-supplied initial context merged with the already-produced results
of its declared dependencies only: at any key it did not declare as a
dependency the context reads straight from the initial context (results of
non-dependency nodes are invisible), and two result maps agreeing on the
declared dependencies build identical contexts, so runs differing only in
non-dependency results give the node the same input. -/
theorem context_isolation {V : Type} (ctx results₁ results₂ : Ctx V)
    (deps : List String) (k : String) :
    (k ∉ deps →
      dictGet (buildAgentContext ctx results₁ deps) k = dictGet ctx k)
    ∧ ((∀ d ∈ deps, dictGet results₁ d = dictGet results₂ d) →
        buildAgentContext ctx results₁ deps
          = buildAgentContext ctx results₂ deps) := by
  constructor
  · intro hk
    induction deps generalizing ctx with
    | nil => rfl
    | cons d rest ih =>
      have hkd : k ≠ d := fun hc => hk (hc ▸ List.mem_cons_self d rest)
      have hkrest : k ∉ rest := fun hc => hk (List.mem_cons_of_mem d hc)
      show dictGet (buildAgentContext
        (match dictGet results₁ d with
          | some r => dictSet ctx d r
          | none => ctx) results₁ rest) k = dictGet ctx k
      rw [ih _ hkrest]
      cases dictGet results₁ d with
      | none => rfl
      | some r => exact dictGet_dictSet_ne ctx k d r hkd
  · intro hagree
    induction deps generalizing ctx with
    | nil => rfl
    | cons d rest ih =>
      have hd := hagree d (List.mem_cons_self d rest)
      show buildAgentContext
          (match dictGet results₁ d with
            | some r => dictSet ctx d r
            | none => ctx) results₁ rest
        = buildAgentContext
          (match dictGet results₂ d with
            | some r => dictSet ctx d r
            | none => ctx) results₂ rest
      rw [← hd]
      exact ih _ (fun d' hd' => hagree d' (List.mem_cons_of_mem d hd'))

/-- C6 witness: with dependencies {A}, the built context ignores the
result of the undeclared node X (reads the initial context there), and two
result maps differing only at X build the same context. -/
theorem context_isolation_witness :
    ("X" ∉ ["A"]
      ∧ dictGet (buildAgentContext [("init", some 1)]
          [("A", some 5), ("X", some 9)] ["A"]) "X"
        = dictGet [("init", (some 1 : Option ℕ))] "X")
    ∧ ((∀ d ∈ ["A"], dictGet [("A", some 5), ("X", some 9)] d
          = dictGet [("A", some 5), ("X", some 7)] d)
      ∧ buildAgentContext [("init", (some 1 : Option ℕ))]
          [("A", some 5), ("X", some 9)] ["A"]
        = buildAgentContext [("init", some 1)]
          [("A", some 5), ("X", some 7)] ["A"]) := by
  constructor
  · refine ⟨by decide, ?_⟩
    exact (context_isolation [("init", some 1)]
      [("A", some 5), ("X", some 9)] [("A", some 5), ("X", some 7)]
      ["A"] "X").1 (by decide)
  · refine ⟨by decide, ?_⟩
    exact (context_isolation [("init", some 1)]
      [("A", some 5), ("X", some 9)] [("A", some 5), ("X", some 7)]
      ["A"] "X").2 (by decide)

end NexusLearn
